import Mathlib

/-!
Verification development for the stream-resolution and caching subsystem of a
YouTube streaming API (files `utils.py`, `api.py`, `config.py`).

Python dictionaries are modelled as insertion-ordered association lists with
unique keys; timestamps are modelled as integers; the external extraction
engine (yt-dlp) is modelled as an opaque function parameter.  Character
classes from the regular expressions are modelled over the ASCII alphabet.
-/

namespace StreamAPI

/-! Association lists modelling Python dicts (insertion-ordered, unique keys). -/

section AssocList

variable {K : Type} [DecidableEq K] {V : Type}

/-- Lookup of a key in an insertion-ordered association list (Python `d[k]` / `d.get(k)`). -/
def lookupA (k : K) : List (K × V) → Option V
  | [] => none
  | (k', v) :: rest => if k' = k then some v else lookupA k rest

/-- Membership test for a key (Python `k in d`). -/
def containsA (k : K) (l : List (K × V)) : Bool :=
  (lookupA k l).isSome

/-- Assignment `d[k] = v`: updates in place if the key exists, otherwise appends
at the end, as a Python dict does. -/
def insertA (k : K) (v : V) : List (K × V) → List (K × V)
  | [] => [(k, v)]
  | (k', v') :: rest => if k' = k then (k, v) :: rest else (k', v') :: insertA k v rest

/-- Deletion `del d[k]`: removes the first entry with the given key. -/
def eraseA (k : K) : List (K × V) → List (K × V)
  | [] => []
  | (k', v') :: rest => if k' = k then rest else (k', v') :: eraseA k rest

/-- Keys are pairwise distinct, as in a Python dict. -/
def NodupKeys (l : List (K × V)) : Prop :=
  (l.map Prod.fst).Nodup

theorem lookupA_insertA_self (k : K) (v : V) (l : List (K × V)) :
    lookupA k (insertA k v l) = some v := by
  induction l with
  | nil => simp [insertA, lookupA]
  | cons p rest ih =>
    obtain ⟨k', v'⟩ := p
    by_cases h : k' = k <;> simp [insertA, lookupA, h, ih]

theorem lookupA_insertA_ne (k k' : K) (v : V) (l : List (K × V)) (h : k' ≠ k) :
    lookupA k (insertA k' v l) = lookupA k l := by
  induction l with
  | nil => simp [insertA, lookupA, h, Ne.symm h]
  | cons p rest ih =>
    obtain ⟨k₀, v₀⟩ := p
    by_cases h0 : k₀ = k'
    · subst h0
      simp [insertA, lookupA, h, Ne.symm h]
    · by_cases h1 : k₀ = k <;> simp [insertA, lookupA, h0, h1, ih, h, Ne.symm h]

theorem lookupA_eraseA_ne (k k' : K) (l : List (K × V)) (h : k' ≠ k) :
    lookupA k (eraseA k' l) = lookupA k l := by
  induction l with
  | nil => simp [eraseA]
  | cons p rest ih =>
    obtain ⟨k₀, v₀⟩ := p
    by_cases h0 : k₀ = k'
    · subst h0
      simp [eraseA, lookupA, h, Ne.symm h]
    · by_cases h1 : k₀ = k <;> simp [eraseA, lookupA, h0, h1, ih, h, Ne.symm h]

theorem lookupA_eq_none_of_not_mem (k : K) (l : List (K × V))
    (h : k ∉ l.map Prod.fst) : lookupA k l = none := by
  induction l with
  | nil => rfl
  | cons p rest ih =>
    obtain ⟨k₀, v₀⟩ := p
    simp only [List.map_cons, List.mem_cons] at h
    push_neg at h
    simp [lookupA, Ne.symm h.1, ih h.2]

theorem lookupA_eraseA_self (k : K) (l : List (K × V)) (h : NodupKeys l) :
    lookupA k (eraseA k l) = none := by
  induction l with
  | nil => rfl
  | cons p rest ih =>
    obtain ⟨k₀, v₀⟩ := p
    simp only [NodupKeys, List.map_cons, List.nodup_cons] at h
    by_cases h0 : k₀ = k
    · subst h0
      simp only [eraseA, if_pos rfl]
      exact lookupA_eq_none_of_not_mem _ _ h.1
    · simp only [eraseA, if_neg h0, lookupA, if_neg h0]
      exact ih h.2

theorem eraseA_length (k : K) (l : List (K × V)) (h : containsA k l = true) :
    (eraseA k l).length + 1 = l.length := by
  induction l with
  | nil => simp [containsA, lookupA] at h
  | cons p rest ih =>
    obtain ⟨k₀, v₀⟩ := p
    by_cases h0 : k₀ = k
    · simp [eraseA, h0]
    · simp only [containsA, lookupA, if_neg h0] at h
      simp [eraseA, h0, ih h]

theorem insertA_length_le (k : K) (v : V) (l : List (K × V)) :
    (insertA k v l).length ≤ l.length + 1 := by
  induction l with
  | nil => simp [insertA]
  | cons p rest ih =>
    obtain ⟨k₀, v₀⟩ := p
    by_cases h0 : k₀ = k <;> simp [insertA, h0] <;> omega

theorem insertA_of_not_contains (k : K) (v : V) (l : List (K × V))
    (h : containsA k l = false) : insertA k v l = l ++ [(k, v)] := by
  induction l with
  | nil => simp [insertA]
  | cons p rest ih =>
    obtain ⟨k₀, v₀⟩ := p
    by_cases h0 : k₀ = k
    · simp [containsA, lookupA, h0] at h
    · simp only [containsA, lookupA, if_neg h0] at h
      simp [insertA, h0, ih h]

end AssocList

/-! Encoding candidates and format selection, from
`YouTubeDownloader._extract_info_sync` in `src/utils.py` (lines 545-626).
Fields that `yt-dlp` may omit or set to None are modelled as `Option`. -/

/-- One row of the extraction engine's reported format list. -/
structure MediaFormat where
  vcodec : Option String := none
  acodec : Option String := none
  height : Option Nat := none
  width : Option Nat := none
  fps : Option Nat := none
  tbr : Option Nat := none
  abr : Option Nat := none
  asr : Option Nat := none
  ext : String := ""
  url : String := ""
deriving DecidableEq

/-- Python truthiness fallback `a or b` on numbers. -/
def orElseNat (a b : Nat) : Nat :=
  if a = 0 then b else a

/-- Substring test, modelling Python `needle in hay`. -/
def hasSubstr (needle hay : String) : Bool :=
  decide (List.IsInfix needle.toList hay.toList)

/-- Sort key for audio formats (line 552-557 of utils.py):
`(abr or tbr or 0, 'm4a' in ext, 'mp3' in ext, asr or 0)`. -/
def audioKey (f : MediaFormat) : Nat × Nat × Nat × Nat :=
  (orElseNat (f.abr.getD 0) (f.tbr.getD 0),
   if hasSubstr "m4a" f.ext.toLower then 1 else 0,
   if hasSubstr "mp3" f.ext.toLower then 1 else 0,
   f.asr.getD 0)

/-- Sort key for video formats (line 596-601 of utils.py):
`(height or 0, width or 0, fps or 0, tbr or 0)`. -/
def videoKey (f : MediaFormat) : Nat × Nat × Nat × Nat :=
  (f.height.getD 0, f.width.getD 0, f.fps.getD 0, f.tbr.getD 0)

/-- Lexicographic strict comparison of 4-component sort keys. -/
def lex4Lt : Nat × Nat × Nat × Nat → Nat × Nat × Nat × Nat → Bool
  | (a1, a2, a3, a4), (b1, b2, b3, b4) =>
    Nat.blt a1 b1 ||
      (a1 == b1 && (Nat.blt a2 b2 ||
        (a2 == b2 && (Nat.blt a3 b3 || (a3 == b3 && Nat.blt a4 b4)))))

/-- Stable insertion used to model Python `list.sort(key=..., reverse=True)`:
an element is placed before the first element with a key not larger than its
own, so equal keys keep their original relative order. -/
def insertDescBy (key : MediaFormat → Nat × Nat × Nat × Nat) (f : MediaFormat) :
    List MediaFormat → List MediaFormat
  | [] => [f]
  | g :: gs =>
    if lex4Lt (key f) (key g) then g :: insertDescBy key f gs else f :: g :: gs

/-- Stable descending sort by a 4-component key. -/
def sortDescBy (key : MediaFormat → Nat × Nat × Nat × Nat) :
    List MediaFormat → List MediaFormat
  | [] => []
  | f :: fs => insertDescBy key f (sortDescBy key fs)

/-- Outcome of the format-selection portion of `_extract_info_sync`. -/
inductive SelectOutcome where
  | success (streamType : String) (best : MediaFormat)
  | failure (message : String)
deriving DecidableEq

/-- Kind filter for audio (line 548): keep formats whose `acodec` is not the
string `'none'` (a missing `acodec` also passes, as `None != 'none'`). -/
def audioFilter (formats : List MediaFormat) : List MediaFormat :=
  formats.filter fun f => decide (f.acodec ≠ some "none")

/-- Kind filter for video (line 583): keep formats whose `vcodec` is not the
string `'none'`; the audio codec is not consulted. -/
def videoKindFilter (formats : List MediaFormat) : List MediaFormat :=
  formats.filter fun f => decide (f.vcodec ≠ some "none")

/-- Quality-tier ceiling filter (lines 585-593): `low` keeps height ≤ 360,
`medium` ≤ 480, `high` ≤ 720; any other tier leaves the list unfiltered. -/
def tierFilter (quality : String) (l : List MediaFormat) : List MediaFormat :=
  if quality = "low" then l.filter fun f => decide (f.height.getD 0 ≤ 360)
  else if quality = "medium" then l.filter fun f => decide (f.height.getD 0 ≤ 480)
  else if quality = "high" then l.filter fun f => decide (f.height.getD 0 ≤ 720)
  else l

/-- Format selection from `_extract_info_sync` (lines 547-626): filter by kind,
for video additionally apply the tier ceiling, sort descending by the composite
key and take the first element; an empty set yields the literal error messages
of the source. -/
def selectFormat (videoType quality : String) (formats : List MediaFormat) :
    SelectOutcome :=
  if videoType = "audio" then
    match sortDescBy audioKey (audioFilter formats) with
    | best :: _ => .success "audio" best
    | [] => .failure "No audio format found"
  else
    match sortDescBy videoKey (tierFilter quality (videoKindFilter formats)) with
    | best :: _ => .success "video" best
    | [] => .failure ("No " ++ quality ++ " quality video format found")

/-! The extraction engine and the retry structure of `_extract_info_sync`
(lines 505-643).  The engine's boolean argument is `use_cookies`. -/

/-- Metadata returned by a successful engine invocation. -/
structure VideoInfo where
  title : String := ""
  formats : List MediaFormat := []
deriving DecidableEq

/-- Possible behaviours of one `yt_dlp.YoutubeDL(...).extract_info` call:
raise a `DownloadError`, raise any other exception, or return metadata
(possibly falsy, modelled as `none`). -/
inductive EngineResult where
  | downloadError (msg : String)
  | raisesOther (msg : String)
  | returns (info : Option VideoInfo)
deriving DecidableEq

/-- Normalized result dictionary of `_extract_info_sync` / `get_stream_info`,
restricted to the fields the claims are about. -/
structure StreamResult where
  status : String
  message : String := ""
  title : String := ""
  streamType : String := ""
  chosen : Option MediaFormat := none
deriving DecidableEq

/-- Classification of a `DownloadError` message (lines 633-641). -/
def classifyDownloadError (msg : String) : StreamResult :=
  if hasSubstr "Private video" msg then { status := "error", message := "Video is private" }
  else if hasSubstr "Members-only" msg then { status := "error", message := "Video is members-only" }
  else if hasSubstr "Copyright" msg then { status := "error", message := "Video blocked by copyright" }
  else { status := "error", message := "Download error: " ++ msg }

/-- Assembly of the result once metadata is available (lines 523-631),
including the defect at lines 628-629: `_extract_info_sync` is a
`@staticmethod`, yet line 629 reads `cls._get_available_qualities(formats)`,
so for `video_type == "video"` every call that survives format selection
raises `NameError` on the unbound name `cls`; the handler at line 642 turns
it into the error result below.  The early returns at lines 580 and 626 fire
before line 628, so selection failures keep their own messages, and the
audio path (guard at line 628 false) still returns a success. -/
def buildResult (videoType quality : String) (info : VideoInfo) : StreamResult :=
  match selectFormat videoType quality info.formats with
  | .success t best =>
    if videoType = "video" then
      { status := "error", message := "Extraction error: name 'cls' is not defined" }
    else
      { status := "success", title := info.title, streamType := t, chosen := some best }
  | .failure m => { status := "error", message := m }

/-- The body of `_extract_info_sync` (lines 505-643): invoke the engine with
cookies; only when it returns falsy metadata, retry once without cookies; an
exception from either attempt — including the `NameError` that `buildResult`
models for the video-type assembly at line 629 — is caught by the handlers at
lines 633-643 and converted to an error result.  The second component counts
engine invocations. -/
def extractInfoSync (engine : Bool → EngineResult) (videoType quality : String) :
    StreamResult × Nat :=
  match engine true with
  | .downloadError msg => (classifyDownloadError msg, 1)
  | .raisesOther msg => ({ status := "error", message := "Extraction error: " ++ msg }, 1)
  | .returns (some info) => (buildResult videoType quality info, 1)
  | .returns none =>
    match engine false with
    | .downloadError msg => (classifyDownloadError msg, 2)
    | .raisesOther msg => ({ status := "error", message := "Extraction error: " ++ msg }, 2)
    | .returns (some info) => (buildResult videoType quality info, 2)
    | .returns none => ({ status := "error", message := "Could not extract video info" }, 2)

/-! Properties of the descending stable sort used by the format selector. -/

theorem lex4Lt_iff (a b : Nat × Nat × Nat × Nat) :
    lex4Lt a b = true ↔
      a.1 < b.1 ∨ (a.1 = b.1 ∧ (a.2.1 < b.2.1 ∨ (a.2.1 = b.2.1 ∧
        (a.2.2.1 < b.2.2.1 ∨ (a.2.2.1 = b.2.2.1 ∧ a.2.2.2 < b.2.2.2))))) := by
  obtain ⟨a1, a2, a3, a4⟩ := a
  obtain ⟨b1, b2, b3, b4⟩ := b
  simp [lex4Lt, Nat.blt_eq, Bool.or_eq_true, Bool.and_eq_true, beq_iff_eq]

theorem lex4Lt_irrefl (a : Nat × Nat × Nat × Nat) : lex4Lt a a = false := by
  obtain ⟨a1, a2, a3, a4⟩ := a
  rw [Bool.eq_false_iff]
  intro hc
  rw [lex4Lt_iff] at hc
  omega

theorem lex4Lt_asymm (a b : Nat × Nat × Nat × Nat) (h : lex4Lt a b = true) :
    lex4Lt b a = false := by
  rw [Bool.eq_false_iff]
  intro hc
  rw [lex4Lt_iff] at h hc
  omega

theorem lex4Lt_trans_not (a b c : Nat × Nat × Nat × Nat)
    (h1 : lex4Lt a b = false) (h2 : lex4Lt b c = false) : lex4Lt a c = false := by
  simp only [Bool.eq_false_iff, Ne, lex4Lt_iff] at h1 h2 ⊢
  omega

theorem mem_insertDescBy (key : MediaFormat → Nat × Nat × Nat × Nat)
    (f x : MediaFormat) (l : List MediaFormat) :
    x ∈ insertDescBy key f l ↔ x = f ∨ x ∈ l := by
  induction l with
  | nil => simp [insertDescBy]
  | cons g gs ih =>
    by_cases h : lex4Lt (key f) (key g) = true
    · simp only [insertDescBy, if_pos h, List.mem_cons, ih]
      tauto
    · simp only [insertDescBy, if_neg h, List.mem_cons]

theorem mem_sortDescBy (key : MediaFormat → Nat × Nat × Nat × Nat)
    (x : MediaFormat) (l : List MediaFormat) :
    x ∈ sortDescBy key l ↔ x ∈ l := by
  induction l with
  | nil => simp [sortDescBy]
  | cons f fs ih =>
    simp [sortDescBy, mem_insertDescBy, ih]

theorem sortDescBy_eq_nil_iff (key : MediaFormat → Nat × Nat × Nat × Nat)
    (l : List MediaFormat) : sortDescBy key l = [] ↔ l = [] := by
  cases l with
  | nil => simp [sortDescBy]
  | cons f fs =>
    simp only [sortDescBy]
    constructor
    · intro h
      have : f ∈ insertDescBy key f (sortDescBy key fs) := by
        rw [mem_insertDescBy]
        exact Or.inl rfl
      rw [h] at this
      cases this
    · intro h
      cases h

/-- The head of the stable descending sort has a key at least as large as the
key of every list element. -/
theorem sortDescBy_head_max (key : MediaFormat → Nat × Nat × Nat × Nat)
    (l t : List MediaFormat) (h : MediaFormat)
    (hs : sortDescBy key l = h :: t) :
    ∀ g ∈ l, lex4Lt (key h) (key g) = false := by
  induction l generalizing h t with
  | nil => cases hs
  | cons f fs ih =>
    simp only [sortDescBy] at hs
    cases hsf : sortDescBy key fs with
    | nil =>
      have hfs : fs = [] := (sortDescBy_eq_nil_iff key fs).mp hsf
      subst hfs
      rw [hsf] at hs
      simp only [insertDescBy] at hs
      cases hs
      intro g hg
      simp only [List.mem_cons, List.not_mem_nil, or_false] at hg
      subst hg
      exact lex4Lt_irrefl _
    | cons h' t' =>
      rw [hsf] at hs
      simp only [insertDescBy] at hs
      by_cases hcond : lex4Lt (key f) (key h') = true
      · rw [if_pos hcond] at hs
        obtain ⟨rfl, rfl⟩ : h' = h ∧ insertDescBy key f t' = t := by
          cases hs
          exact ⟨rfl, rfl⟩
        intro g hg
        rcases List.mem_cons.mp hg with rfl | hg2
        · exact lex4Lt_asymm _ _ hcond
        · exact ih _ _ hsf g hg2
      · rw [if_neg hcond] at hs
        rw [Bool.not_eq_true] at hcond
        obtain ⟨rfl, rfl⟩ : f = h ∧ h' :: t' = t := by
          cases hs
          exact ⟨rfl, rfl⟩
        intro g hg
        rcases List.mem_cons.mp hg with rfl | hg2
        · exact lex4Lt_irrefl _
        · exact lex4Lt_trans_not _ _ _ hcond (ih _ _ hsf g hg2)

/-! The TTL cache with LRU eviction, from class `Cache` in `src/utils.py`
(lines 280-369).  Timestamps are integers standing for `time.time()`. -/

section Cache

variable {K : Type} [DecidableEq K] {V : Type}

/-- One cache slot: the tuple `(timestamp, value, size)` stored by `Cache.set`. -/
structure CacheEntry (V : Type) where
  timestamp : Int
  value : V
  size : Nat

/-- Counters of `Cache.stats`. -/
structure CacheStats where
  hits : Nat := 0
  misses : Nat := 0
  evictions : Nat := 0
  sizeBytes : Int := 0

/-- State of a `Cache` instance: the entry dict, the `access_times` dict and
the statistics counters. -/
structure CacheState (K V : Type) where
  cache : List (K × CacheEntry V) := []
  accessTimes : List (K × Int) := []
  stats : CacheStats := {}

/-- Python `min(access_times.items(), key=lambda x: x[1])`: the first entry
with the minimal timestamp, in dict insertion order. -/
def minByTime (l : List (K × Int)) : Option (K × Int) :=
  l.foldl
    (fun acc p =>
      match acc with
      | none => some p
      | some q => if p.2 < q.2 then some p else some q)
    none

/-- Method `Cache.get` (lines 294-311): a fresh entry is a hit and refreshes
the access time; a stale entry (age at least the TTL) is deleted and counted
as a miss; an absent key is a miss. -/
def cacheGet (ttl now : Int) (key : K) (st : CacheState K V) :
    Option V × CacheState K V :=
  match lookupA key st.cache with
  | some e =>
    if now - e.timestamp < ttl then
      (some e.value,
       { st with
           accessTimes := insertA key now st.accessTimes,
           stats := { st.stats with hits := st.stats.hits + 1 } })
    else
      (none,
       { st with
           cache := eraseA key st.cache,
           accessTimes := eraseA key st.accessTimes,
           stats := { st.stats with
                        sizeBytes := st.stats.sizeBytes - (e.size : Int),
                        misses := st.stats.misses + 1 } })
  | none =>
    (none, { st with stats := { st.stats with misses := st.stats.misses + 1 } })

/-- The `while len(self.cache) >= config.MAX_CACHE_SIZE` eviction loop of
`Cache.set` (lines 321-337).  Each iteration removes the entry whose access
time is oldest (falling back to the first cache key when `access_times` is
empty).  The fuel argument bounds the iteration count; callers pass enough
fuel for the loop to reach its exit condition, and the two stuck situations
(the oldest key missing from the cache dict, or both dicts empty with a zero
capacity) leave the state unchanged, mirroring a diverging or raising loop
only up to the point where the claims need it. -/
def evictLoop (maxSize : Nat) : Nat → CacheState K V → CacheState K V
  | 0, st => st
  | fuel + 1, st =>
    if maxSize ≤ st.cache.length then
      match minByTime st.accessTimes with
      | some (oldestKey, _) =>
        match lookupA oldestKey st.cache with
        | some e =>
          evictLoop maxSize fuel
            { st with
                cache := eraseA oldestKey st.cache,
                accessTimes := eraseA oldestKey st.accessTimes,
                stats := { st.stats with
                             sizeBytes := st.stats.sizeBytes - (e.size : Int),
                             evictions := st.stats.evictions + 1 } }
        | none => evictLoop maxSize fuel st
      | none =>
        match st.cache with
        | (k, e) :: _ =>
          evictLoop maxSize fuel
            { st with
                cache := eraseA k st.cache,
                accessTimes := eraseA k st.accessTimes,
                stats := { st.stats with
                             sizeBytes := st.stats.sizeBytes - (e.size : Int),
                             evictions := st.stats.evictions + 1 } }
        | [] => st
    else st

/-- Method `Cache.set` (lines 313-341) with an explicit size hint, as passed
by `get_stream_info`: evict while at or above capacity, then store the entry
and its access time. -/
def cacheSet (maxSize : Nat) (now : Int) (key : K) (v : V) (size : Nat)
    (st : CacheState K V) : CacheState K V :=
  let st1 := evictLoop maxSize (st.cache.length + 1) st
  { st1 with
      cache := insertA key ⟨now, v, size⟩ st1.cache,
      accessTimes := insertA key now st1.accessTimes,
      stats := { st1.stats with sizeBytes := st1.stats.sizeBytes + (size : Int) } }

/-- Well-formedness maintained by every `Cache` method: both dicts have
unique keys and hold exactly the same key set. -/
def CacheWF (st : CacheState K V) : Prop :=
  NodupKeys st.cache ∧ NodupKeys st.accessTimes ∧
    ∀ k, containsA k st.cache = containsA k st.accessTimes

theorem minByTime_foldl_some (l : List (K × Int)) (q : K × Int) :
    (l.foldl
      (fun acc p =>
        match acc with
        | none => some p
        | some q' => if p.2 < q'.2 then some p else some q')
      (some q)).isSome = true := by
  induction l generalizing q with
  | nil => rfl
  | cons p rest ih =>
    simp only [List.foldl_cons]
    by_cases h : p.2 < q.2
    · simpa [h] using ih p
    · simpa [h] using ih q

theorem minByTime_isSome (l : List (K × Int)) (h : l ≠ []) :
    (minByTime l).isSome = true := by
  cases l with
  | nil => exact absurd rfl h
  | cons p rest =>
    simp only [minByTime, List.foldl_cons]
    exact minByTime_foldl_some rest p

theorem minByTime_foldl_mem (l : List (K × Int)) (q p : K × Int)
    (h : l.foldl
      (fun acc r =>
        match acc with
        | none => some r
        | some q' => if r.2 < q'.2 then some r else some q')
      (some q) = some p) : p = q ∨ p ∈ l := by
  induction l generalizing q with
  | nil =>
    simp only [List.foldl_nil, Option.some_inj] at h
    exact Or.inl h.symm
  | cons r rest ih =>
    simp only [List.foldl_cons] at h
    by_cases hr : r.2 < q.2
    · rw [if_pos hr] at h
      rcases ih r h with h1 | h1
      · exact Or.inr (List.mem_cons.mpr (Or.inl h1))
      · exact Or.inr (List.mem_cons.mpr (Or.inr h1))
    · rw [if_neg hr] at h
      rcases ih q h with h1 | h1
      · exact Or.inl h1
      · exact Or.inr (List.mem_cons.mpr (Or.inr h1))

theorem minByTime_mem (l : List (K × Int)) (p : K × Int)
    (h : minByTime l = some p) : p ∈ l := by
  cases l with
  | nil => cases h
  | cons q rest =>
    simp only [minByTime, List.foldl_cons] at h
    rcases minByTime_foldl_mem rest q p h with h1 | h1
    · exact List.mem_cons.mpr (Or.inl h1)
    · exact List.mem_cons.mpr (Or.inr h1)

theorem minByTime_head (hd : K × Int) (t : List (K × Int))
    (h : ∀ q ∈ t, hd.2 ≤ q.2) : minByTime (hd :: t) = some hd := by
  simp only [minByTime, List.foldl_cons]
  induction t generalizing hd with
  | nil => rfl
  | cons r rest ih =>
    have hr : ¬ r.2 < hd.2 := not_lt.mpr (h r (List.mem_cons.mpr (Or.inl rfl)))
    simp only [List.foldl_cons, if_neg hr]
    exact ih hd fun q hq => h q (List.mem_cons.mpr (Or.inr hq))

theorem containsA_of_mem (p : K × V) (l : List (K × V)) (h : p ∈ l) :
    containsA p.1 l = true := by
  induction l with
  | nil => cases h
  | cons q rest ih =>
    rcases List.mem_cons.mp h with rfl | h1
    · simp [containsA, lookupA]
    · obtain ⟨k₀, v₀⟩ := q
      by_cases h0 : k₀ = p.1 <;> simp [containsA, lookupA, h0, ih h1] at ih h1 ⊢
      exact ih h1

theorem mem_map_fst_insertA (x k : K) (v : V) (l : List (K × V)) :
    x ∈ (insertA k v l).map Prod.fst ↔ x = k ∨ x ∈ l.map Prod.fst := by
  induction l with
  | nil => simp [insertA]
  | cons p rest ih =>
    obtain ⟨k₀, v₀⟩ := p
    by_cases h0 : k₀ = k
    · subst h0
      simp [insertA]
    · simp only [insertA, if_neg h0, List.map_cons, List.mem_cons, ih]
      tauto

theorem nodupKeys_insertA (k : K) (v : V) (l : List (K × V)) (h : NodupKeys l) :
    NodupKeys (insertA k v l) := by
  induction l with
  | nil => simp [insertA, NodupKeys]
  | cons p rest ih =>
    obtain ⟨k₀, v₀⟩ := p
    simp only [NodupKeys, List.map_cons, List.nodup_cons] at h
    by_cases h0 : k₀ = k
    · subst h0
      simpa [NodupKeys, insertA, List.nodup_cons] using h
    · simp only [NodupKeys, insertA, if_neg h0, List.map_cons, List.nodup_cons]
      constructor
      · intro hc
        rcases (mem_map_fst_insertA _ _ _ _).mp hc with rfl | h1
        · exact h0 rfl
        · exact h.1 h1
      · exact ih h.2

theorem mem_of_mem_eraseA (p : K × V) (k : K) (l : List (K × V))
    (h : p ∈ eraseA k l) : p ∈ l := by
  induction l with
  | nil => cases h
  | cons q rest ih =>
    obtain ⟨k₁, v₁⟩ := q
    by_cases h1 : k₁ = k
    · simp only [eraseA, if_pos h1] at h
      exact List.mem_cons.mpr (Or.inr h)
    · simp only [eraseA, if_neg h1, List.mem_cons] at h
      rcases h with rfl | h2
      · exact List.mem_cons.mpr (Or.inl rfl)
      · exact List.mem_cons.mpr (Or.inr (ih h2))

theorem nodupKeys_eraseA (k : K) (l : List (K × V)) (h : NodupKeys l) :
    NodupKeys (eraseA k l) := by
  induction l with
  | nil => exact h
  | cons p rest ih =>
    obtain ⟨k₀, v₀⟩ := p
    simp only [NodupKeys, List.map_cons, List.nodup_cons] at h
    by_cases h0 : k₀ = k
    · simpa [eraseA, h0, NodupKeys] using h.2
    · simp only [NodupKeys, eraseA, if_neg h0, List.map_cons, List.nodup_cons]
      refine ⟨fun hc => h.1 ?_, ih h.2⟩
      obtain ⟨p, hp, hp2⟩ := List.mem_map.mp hc
      exact List.mem_map.mpr ⟨p, mem_of_mem_eraseA p k rest hp, hp2⟩

theorem containsA_eraseA (x k : K) (l : List (K × V)) (h : NodupKeys l) :
    containsA x (eraseA k l) = if x = k then false else containsA x l := by
  by_cases hx : x = k
  · subst hx
    simp [containsA, lookupA_eraseA_self x l h, if_pos rfl]
  · simp [containsA, lookupA_eraseA_ne x k l (fun hc => hx hc.symm), hx]

theorem cacheWF_erase (st : CacheState K V) (k : K) (e : CacheEntry V)
    (hwf : CacheWF st) (sb : Int) (ev : Nat) :
    CacheWF { st with
                cache := eraseA k st.cache,
                accessTimes := eraseA k st.accessTimes,
                stats := { st.stats with sizeBytes := sb, evictions := ev } } := by
  obtain ⟨h1, h2, h3⟩ := hwf
  refine ⟨nodupKeys_eraseA k _ h1, nodupKeys_eraseA k _ h2, fun x => ?_⟩
  rw [containsA_eraseA x k _ h1, containsA_eraseA x k _ h2, h3]

/-- The eviction loop leaves any state already below capacity unchanged. -/
theorem evictLoop_of_lt (maxSize fuel : Nat) (st : CacheState K V)
    (h : st.cache.length < maxSize) : evictLoop maxSize fuel st = st := by
  cases fuel with
  | zero => rfl
  | succ n => simp [evictLoop, Nat.not_le.mpr h]

/-- Given a well-formed state, enough fuel and a positive capacity, the
eviction loop reaches a state strictly below capacity and preserves
well-formedness. -/
theorem evictLoop_reaches (maxSize : Nat) (hpos : 1 ≤ maxSize) :
    ∀ (fuel : Nat) (st : CacheState K V), CacheWF st → st.cache.length ≤ fuel →
      CacheWF (evictLoop maxSize fuel st) ∧
        (evictLoop maxSize fuel st).cache.length < maxSize := by
  intro fuel
  induction fuel with
  | zero =>
    intro st hwf hlen
    have h0 : st.cache.length = 0 := Nat.le_zero.mp hlen
    refine ⟨hwf, ?_⟩
    simpa [evictLoop, h0] using hpos
  | succ n ih =>
    intro st hwf hlen
    by_cases hguard : maxSize ≤ st.cache.length
    · have hne : st.cache ≠ [] := by
        intro hc
        rw [hc] at hguard
        simp at hguard
        omega
      obtain ⟨⟨k₀, e₀⟩, rest, hcons⟩ : ∃ p rest, st.cache = p :: rest := by
        cases hc : st.cache with
        | nil => exact absurd hc hne
        | cons p rest => exact ⟨p, rest, rfl⟩
      have hcacheK : containsA k₀ st.cache = true := by
        rw [hcons]
        simp [containsA, lookupA]
      have hatne : st.accessTimes ≠ [] := by
        intro hc
        have := hwf.2.2 k₀
        rw [hcacheK, hc] at this
        simp [containsA, lookupA] at this
      obtain ⟨⟨km, tm⟩, hmin⟩ : ∃ p, minByTime st.accessTimes = some p := by
        have := minByTime_isSome st.accessTimes hatne
        cases hm : minByTime st.accessTimes with
        | none => rw [hm] at this; cases this
        | some p => exact ⟨p, rfl⟩
      have hmemAT : (km, tm) ∈ st.accessTimes := minByTime_mem _ _ hmin
      have hcontAT : containsA km st.accessTimes = true := containsA_of_mem _ _ hmemAT
      have hcontC : containsA km st.cache = true := by
        rw [hwf.2.2 km]; exact hcontAT
      obtain ⟨em, hem⟩ : ∃ e, lookupA km st.cache = some e := by
        cases hl : lookupA km st.cache with
        | none => rw [containsA, hl] at hcontC; cases hcontC
        | some e => exact ⟨e, rfl⟩
      simp only [evictLoop, if_pos hguard, hmin, hem]
      set st' : CacheState K V :=
        { st with
            cache := eraseA km st.cache,
            accessTimes := eraseA km st.accessTimes,
            stats := { st.stats with
                         sizeBytes := st.stats.sizeBytes - (em.size : Int),
                         evictions := st.stats.evictions + 1 } } with hst'
      have hwf' : CacheWF st' := cacheWF_erase st km em hwf _ _
      have hlen' : st'.cache.length + 1 = st.cache.length :=
        eraseA_length km st.cache hcontC
      exact ih st' hwf' (by omega)
    · rw [Nat.not_le] at hguard
      simp only [evictLoop, if_neg (Nat.not_le.mpr hguard)]
      exact ⟨hwf, hguard⟩

/-- Insertion of `n` distinct keys `0, 1, ..., n-1` into an initially empty
cache, key `j` being inserted at time `j` (so access times strictly increase
with insertion order). -/
def insertKeys (maxSize : Nat) (vals : Nat → V) (sizes : Nat → Nat) :
    Nat → CacheState Nat V
  | 0 => {}
  | n + 1 => cacheSet maxSize (n : Int) n (vals n) (sizes n)
      (insertKeys maxSize vals sizes n)

theorem map_fst_map_pair {W : Type} (h : Nat → W) (R : List Nat) :
    ((R.map fun j => (j, h j)).map Prod.fst) = R := by
  induction R with
  | nil => rfl
  | cons a t ih => simp only [List.map_cons, ih]

theorem lookupA_map_pair {W : Type} (h : Nat → W) (R : List Nat) (j : Nat)
    (hj : j ∉ R) : lookupA j (R.map fun i => (i, h i)) = none := by
  apply lookupA_eq_none_of_not_mem
  rw [map_fst_map_pair]
  exact hj

theorem lookupA_map_range' {W : Type} (h : Nat → W) (j a len : Nat) :
    lookupA j ((List.range' a len).map fun i => (i, h i)) =
      if a ≤ j ∧ j < a + len then some (h j) else none := by
  induction len generalizing a with
  | zero =>
    simp only [List.range', List.map_nil, lookupA]
    split
    · omega
    · rfl
  | succ m ih =>
    rw [List.range'_succ]
    simp only [List.map_cons, lookupA]
    by_cases ha : a = j
    · subst ha
      rw [if_pos rfl, if_pos (by omega)]
    · rw [if_neg ha, ih]
      by_cases hc : a + 1 ≤ j ∧ j < a + 1 + m
      · rw [if_pos hc, if_pos (by omega)]
      · rw [if_neg hc, if_neg (by omega)]

/-- State characterization for the capacity scenario: after `n` insertions the
cache holds exactly the most recent `min n maxSize` keys, in insertion order,
with their insertion times as access times. -/
theorem insertKeys_characterization (maxSize : Nat) (hpos : 1 ≤ maxSize)
    (vals : Nat → V) (sizes : Nat → Nat) (n : Nat) :
    (insertKeys maxSize vals sizes n).cache =
      (List.range' (n - maxSize) (min n maxSize)).map
        (fun j => (j, ⟨(j : Int), vals j, sizes j⟩)) ∧
    (insertKeys maxSize vals sizes n).accessTimes =
      (List.range' (n - maxSize) (min n maxSize)).map (fun (j : Nat) => (j, (j : Int))) := by
  induction n with
  | zero => simp [insertKeys, List.range']
  | succ n ih =>
    obtain ⟨ihc, iha⟩ := ih
    set st := insertKeys maxSize vals sizes n with hst
    have hlen : st.cache.length = min n maxSize := by
      rw [ihc, List.length_map, List.length_range']
    by_cases hcase : n < maxSize
    · have hmin : min n maxSize = n := by omega
      have hsub : n - maxSize = 0 := by omega
      rw [hmin, hsub] at ihc iha
      have hnoev : evictLoop maxSize (st.cache.length + 1) st = st :=
        evictLoop_of_lt _ _ _ (by omega)
      have hnc : containsA n st.cache = false := by
        rw [containsA, ihc, lookupA_map_pair]
        · rfl
        · intro hc
          rw [List.mem_range'] at hc
          omega
      have hna : containsA n st.accessTimes = false := by
        rw [containsA, iha, lookupA_map_pair]
        · rfl
        · intro hc
          rw [List.mem_range'] at hc
          omega
      simp only [insertKeys, cacheSet, hnoev]
      rw [insertA_of_not_contains _ _ _ hnc, insertA_of_not_contains _ _ _ hna,
        ihc, iha]
      have hmin1 : min (n + 1) maxSize = n + 1 := by omega
      have hsub1 : n + 1 - maxSize = 0 := by omega
      rw [hmin1, hsub1]
      have hcat : List.range' 0 (n + 1) = List.range' 0 n ++ [n] := by
        have h2 : List.range' 0 (n + 1) 1 = List.range' 0 n 1 ++ [0 + 1 * n] :=
          List.range'_concat 0 n
        simpa using h2
      rw [hcat]
      constructor
      · simp
      · simp
    · have hMn : maxSize ≤ n := by omega
      have hmin : min n maxSize = maxSize := by omega
      rw [hmin] at ihc iha
      have hR : List.range' (n - maxSize) maxSize =
          (n - maxSize) :: List.range' (n - maxSize + 1) (maxSize - 1) := by
        cases maxSize with
        | zero => omega
        | succ m => simp [List.range'_succ]
      have hmb : minByTime st.accessTimes = some (n - maxSize, ((n - maxSize : Nat) : Int)) := by
        rw [iha, hR, List.map_cons]
        apply minByTime_head
        intro q hq
        obtain ⟨j, hj, rfl⟩ := List.mem_map.mp hq
        rw [List.mem_range'] at hj
        simp only
        exact_mod_cast Nat.le_of_lt (by omega)
      have hlk : lookupA (n - maxSize) st.cache =
          some ⟨((n - maxSize : Nat) : Int), vals (n - maxSize), sizes (n - maxSize)⟩ := by
        rw [ihc, hR, List.map_cons, lookupA, if_pos rfl]
      set st' : CacheState Nat V :=
        { st with
            cache := eraseA (n - maxSize) st.cache,
            accessTimes := eraseA (n - maxSize) st.accessTimes,
            stats := { st.stats with
                         sizeBytes := st.stats.sizeBytes - ((sizes (n - maxSize) : Nat) : Int),
                         evictions := st.stats.evictions + 1 } } with hst'
      have hec : st'.cache =
          (List.range' (n - maxSize + 1) (maxSize - 1)).map
            (fun j => (j, ⟨(j : Int), vals j, sizes j⟩)) := by
        show eraseA (n - maxSize) st.cache = _
        rw [ihc, hR, List.map_cons, eraseA, if_pos rfl]
      have hea : st'.accessTimes =
          (List.range' (n - maxSize + 1) (maxSize - 1)).map (fun (j : Nat) => (j, (j : Int))) := by
        show eraseA (n - maxSize) st.accessTimes = _
        rw [iha, hR, List.map_cons, eraseA, if_pos rfl]
      have hlen' : st'.cache.length = maxSize - 1 := by
        rw [hec, List.length_map, List.length_range']
      have hloop : evictLoop maxSize (st.cache.length + 1) st = st' := by
        rw [hlen, hmin]
        show evictLoop maxSize (maxSize + 1) st = st'
        rw [evictLoop]
        rw [if_pos (show maxSize ≤ st.cache.length by rw [hlen, hmin])]
        simp only [hmb, hlk]
        rw [← hst']
        exact evictLoop_of_lt _ _ _ (by rw [hlen']; omega)
      have hnc : containsA n st'.cache = false := by
        rw [containsA, hec, lookupA_map_pair]
        · rfl
        · intro hc
          rw [List.mem_range'] at hc
          omega
      have hna : containsA n st'.accessTimes = false := by
        rw [containsA, hea, lookupA_map_pair]
        · rfl
        · intro hc
          rw [List.mem_range'] at hc
          omega
      simp only [insertKeys, cacheSet, hloop]
      rw [insertA_of_not_contains _ _ _ hnc, insertA_of_not_contains _ _ _ hna,
        hec, hea]
      have hmin1 : min (n + 1) maxSize = maxSize := by omega
      have hsub1 : n + 1 - maxSize = n - maxSize + 1 := by omega
      rw [hmin1, hsub1]
      have hRn : List.range' (n - maxSize + 1) maxSize =
          List.range' (n - maxSize + 1) (maxSize - 1) ++ [n] := by
        have h2 : List.range' (n - maxSize + 1) ((maxSize - 1) + 1) 1 =
            List.range' (n - maxSize + 1) (maxSize - 1) 1 ++
              [(n - maxSize + 1) + 1 * (maxSize - 1)] :=
          List.range'_concat _ _
        rw [show (maxSize - 1) + 1 = maxSize by omega] at h2
        rw [show (n - maxSize + 1) + 1 * (maxSize - 1) = n by omega] at h2
        exact h2
      rw [hRn]
      constructor
      · simp
      · simp

end Cache

/-! The sliding-window rate limiter, from class `RateLimiter` in
`src/utils.py` (lines 223-277). -/

section RateLimiter

variable {K : Type} [DecidableEq K]

/-- State of a `RateLimiter` instance: per-client timestamp lists (each entry
a `(timestamp, count)` pair, as stored by `check_limit`) and the statistics
counters. -/
structure RateLimiterState (K : Type) where
  requests : List (K × List (Int × Nat)) := []
  totalRequests : Nat := 0
  blockedRequests : Nat := 0
  byIp : List (K × Nat) := []

/-- The dict comprehension of `check_limit` (lines 240-244): drop clients with
no timestamp after the window start, and filter each kept client's list. -/
def pruneRequests (windowStart : Int) (reqs : List (K × List (Int × Nat))) :
    List (K × List (Int × Nat)) :=
  (reqs.filter fun p => p.2.any fun q => decide (windowStart < q.1)).map
    fun p => (p.1, p.2.filter fun q => decide (windowStart < q.1))

/-- Method `RateLimiter.check_limit` (lines 235-264): prune, count the
remaining requests in the window, then either reject (recording the blocked
statistics) or append the current timestamp and accept. -/
def checkLimit (maxPerMinute : Nat) (now : Int) (clientIp : K)
    (st : RateLimiterState K) : Bool × RateLimiterState K :=
  let windowStart := now - 60
  let reqs0 := pruneRequests windowStart st.requests
  let reqs := if containsA clientIp reqs0 then reqs0 else reqs0 ++ [(clientIp, [])]
  let entry := (lookupA clientIp reqs).getD []
  let requestCount :=
    (entry.filter fun q => decide (windowStart < q.1)).foldl (fun acc q => acc + q.2) 0
  if maxPerMinute ≤ requestCount then
    (false,
     { st with
         requests := reqs,
         blockedRequests := st.blockedRequests + 1,
         byIp := insertA clientIp ((lookupA clientIp st.byIp).getD 0 + 1) st.byIp })
  else
    let entry2 := (entry ++ [(now, 1)]).filter fun q => decide (windowStart < q.1)
    (true,
     { st with
         requests := insertA clientIp entry2 reqs,
         totalRequests := st.totalRequests + 1 })

/-- Sequential admission calls for one client at the given times. -/
def runCalls (maxPerMinute : Nat) (clientIp : K) (times : List Int)
    (st : RateLimiterState K) : List Bool × RateLimiterState K :=
  match times with
  | [] => ([], st)
  | t :: rest =>
    let r := checkLimit maxPerMinute t clientIp st
    let r2 := runCalls maxPerMinute clientIp rest r.2
    (r.1 :: r2.1, r2.2)

end RateLimiter

/-! The identifier extractors: `YouTubeUtils.extract_video_id` in
`src/utils.py` (lines 50-75) and `extract_video_id` in `src/api.py`
(lines 69-89).  Each regular expression is embedded as an explicit scanner;
`re.search` is modelled as trying the pattern at every start position,
leftmost first.  Word characters are taken from the ASCII alphabet. -/

/-- Character class `[\w-]` / `[a-zA-Z0-9_-]` (ASCII portion). -/
def isWordChar (c : Char) : Bool :=
  c.isAlphanum || c == '_' || c == '-'

/-- Capture group `([\w-]{11})` at the current position: exactly eleven word
characters. -/
def takeId11 (l : List Char) : Option (List Char) :=
  let pre := l.take 11
  if pre.length == 11 && pre.all isWordChar then some pre else none

/-- Literal match at the current position, returning the remainder. -/
def dropLit : List Char → List Char → Option (List Char)
  | [], l => some l
  | _ :: _, [] => none
  | a :: lit, b :: l => if a = b then dropLit lit l else none

/-- Literal followed by the 11-character capture group. -/
def matchLitThenId (lit : String) (l : List Char) : Option (List Char) :=
  match dropLit lit.toList l with
  | some rest => takeId11 rest
  | none => none

/-- Pattern `(?:v=|\/)([\w-]{11})` at the current position; the alternation
tries `v=` first. -/
def matchP1 (l : List Char) : Option (List Char) :=
  match matchLitThenId "v=" l with
  | some r => some r
  | none => matchLitThenId "/" l

/-- Pattern `/([\w-]{11})\?` at the current position. -/
def matchPathQuery (l : List Char) : Option (List Char) :=
  match l with
  | [] => none
  | c :: rest =>
    if c = '/' then
      match takeId11 rest with
      | some vid =>
        match rest.drop 11 with
        | '?' :: _ => some vid
        | _ => none
      | none => none
    else none

/-- Scan of `re.search`: try the matcher at every start position, leftmost
first, the end-of-string position included. -/
def searchSuffix (m : List Char → Option (List Char)) : List Char → Option (List Char)
  | [] => m []
  | c :: rest =>
    match m (c :: rest) with
    | some r => some r
    | none => searchSuffix m rest

/-- First matching pattern of an ordered pattern list. -/
def firstPatternMatch (l : List Char) :
    List (List Char → Option (List Char)) → Option (List Char)
  | [] => none
  | p :: ps =>
    match searchSuffix p l with
    | some r => some r
    | none => firstPatternMatch l ps

/-- Ordered pattern list of `YouTubeUtils.extract_video_id` (lines 52-59). -/
def utilsPatterns : List (List Char → Option (List Char)) :=
  [matchP1, matchLitThenId "embed/", matchLitThenId "shorts/",
   matchLitThenId "live/", matchLitThenId "youtu.be/", matchPathQuery]

/-- Split at the first occurrence of a separator: the part before it and,
when the separator occurs, the part after it. -/
def splitAtChar (sep : Char) : List Char → List Char × Option (List Char)
  | [] => ([], none)
  | c :: rest =>
    if c = sep then ([], some rest)
    else
      let r := splitAtChar sep rest
      (c :: r.1, r.2)

/-- Characters allowed in a URL scheme. -/
def isSchemeChar (c : Char) : Bool :=
  c.isAlphanum || c == '+' || c == '-' || c == '.'

/-- Scheme removal of `urlparse`: when the text before the first colon is a
valid scheme (leading letter, scheme characters), continue after the colon. -/
def splitScheme (l : List Char) : List Char :=
  match (splitAtChar ':' l).2 with
  | some after =>
    if (match (splitAtChar ':' l).1 with
        | c :: _ => c.isAlpha
        | [] => false) && (splitAtChar ':' l).1.all isSchemeChar then
      after
    else l
  | none => l

/-- Netloc extraction of `urlparse`: present only after a leading `//`, and
delimited by the next `/`, `?` or `#`. -/
def netlocSplit (l : List Char) : Option (List Char) × List Char :=
  match l with
  | c1 :: c2 :: rest =>
    if c1 == '/' && c2 == '/' then
      (some (rest.takeWhile fun c => !(c == '/' || c == '?' || c == '#')),
       rest.dropWhile fun c => !(c == '/' || c == '?' || c == '#'))
    else (none, l)
  | _ => (none, l)

/-- Hostname of a netloc: the part after the last `@`, before the first `:`,
lowercased; `None` when empty. -/
def hostnameOfNetloc (netloc : List Char) : Option (List Char) :=
  let afterAt := (netloc.reverse.takeWhile fun c => !(c == '@')).reverse
  let host := (afterAt.takeWhile fun c => !(c == ':')).map Char.toLower
  if host.isEmpty then none else some host

/-- Split at every occurrence of a separator. -/
def splitAll (sep : Char) : List Char → List (List Char)
  | [] => [[]]
  | c :: rest =>
    let r := splitAll sep rest
    if c = sep then [] :: r
    else
      match r with
      | h :: t => (c :: h) :: t
      | [] => [[c]]

/-- First nonempty value of query parameter `v`, modelling
`parse_qs(query)['v'][0]` with blank values dropped. -/
def queryParamV (query : List Char) : Option (List Char) :=
  ((splitAll '&' query).filterMap fun part =>
    match splitAtChar '=' part with
    | (k, some v) => if k == ['v'] && !v.isEmpty then some v else none
    | (_, none) => none).head?

/-- The urlparse fallback of `extract_video_id` (utils.py lines 66-73):
parse the URL, require a hostname containing `youtube.com` or `youtu.be`,
and return the first nonempty `v` query parameter. -/
def urlparseFallback (l : List Char) : Option (List Char) :=
  let noFrag := (splitAtChar '#' l).1
  let afterScheme := splitScheme noFrag
  match netlocSplit afterScheme with
  | (some netloc, rest) =>
    match hostnameOfNetloc netloc with
    | some host =>
      if decide (List.IsInfix "youtube.com".toList host) ||
          decide (List.IsInfix "youtu.be".toList host) then
        queryParamV ((splitAtChar '?' rest).2.getD [])
      else none
    | none => none
  | (none, _) => none

/-- Function `YouTubeUtils.extract_video_id` (utils.py lines 50-75): the
ordered pattern scan, then the urlparse fallback, then `None`. -/
def extractVideoId (url : String) : Option String :=
  match firstPatternMatch url.toList utilsPatterns with
  | some vid => some (String.mk vid)
  | none =>
    match urlparseFallback url.toList with
    | some v => some (String.mk v)
    | none => none

/-- Canonical identifier shape `^[a-zA-Z0-9_-]{11}$` (api.py line 72). -/
def isCanonicalId (s : String) : Bool :=
  s.toList.length == 11 && s.toList.all isWordChar

/-- Pattern `(?:youtube\.com/watch\?v=|youtu\.be/)([a-zA-Z0-9_-]{11})` of
api.py, at the current position. -/
def apiMatchP1 (l : List Char) : Option (List Char) :=
  match matchLitThenId "youtube.com/watch?v=" l with
  | some r => some r
  | none => matchLitThenId "youtu.be/" l

/-- Ordered pattern list of api.py `extract_video_id` (lines 76-81). -/
def apiPatterns : List (List Char → Option (List Char)) :=
  [apiMatchP1, matchLitThenId "v=", matchLitThenId "embed/",
   matchLitThenId "youtube.com/v/"]

/-- Function `extract_video_id` (api.py lines 69-89): canonical identifiers
are returned unchanged; otherwise the first matched pattern capture; when
nothing matches, the raw input is returned. -/
def apiExtractVideoId (s : String) : String :=
  if isCanonicalId s then s
  else
    match firstPatternMatch s.toList apiPatterns with
    | some vid => String.mk vid
    | none => s

/-! The resolver orchestration `YouTubeDownloader.get_stream_info` from
`src/utils.py` (lines 470-503): identifier validation, cache lookup, engine
invocation off the event loop, and caching of successful results only. -/

/-- Result of `get_stream_info`, together with the updated cache state and
the number of engine invocations performed during the call. -/
def getStreamInfo (maxSize : Nat) (ttl now : Int) (engine : Bool → EngineResult)
    (url videoType quality : String) (st : CacheState String StreamResult) :
    StreamResult × CacheState String StreamResult × Nat :=
  match extractVideoId url with
  | none => ({ status := "error", message := "Invalid YouTube URL" }, st, 0)
  | some videoId =>
    let cacheKey := videoId ++ ":" ++ videoType ++ ":" ++ quality
    match cacheGet ttl now cacheKey st with
    | (some cached, st1) => (cached, st1, 0)
    | (none, st1) =>
      let r := extractInfoSync engine videoType quality
      if r.1.status = "success" then
        (r.1, cacheSet maxSize now cacheKey r.1 10240 st1, r.2)
      else
        (r.1, st1, r.2)

/-! Shared helper facts about the selection filters. -/

theorem mem_of_mem_tierFilter (quality : String) (l : List MediaFormat)
    (f : MediaFormat) (h : f ∈ tierFilter quality l) : f ∈ l := by
  unfold tierFilter at h
  split at h
  · exact (List.mem_filter.mp h).1
  · split at h
    · exact (List.mem_filter.mp h).1
    · split at h
      · exact (List.mem_filter.mp h).1
      · exact h

theorem sortDescBy_head_spec (key : MediaFormat → Nat × Nat × Nat × Nat)
    (l : List MediaFormat) (hne : l ≠ []) :
    ∃ best t, sortDescBy key l = best :: t ∧ best ∈ l ∧
      ∀ g ∈ l, lex4Lt (key best) (key g) = false := by
  cases hs : sortDescBy key l with
  | nil => exact absurd ((sortDescBy_eq_nil_iff key l).mp hs) hne
  | cons best t =>
    refine ⟨best, t, rfl, ?_, sortDescBy_head_max key l t best hs⟩
    have : best ∈ sortDescBy key l := by
      rw [hs]
      exact List.mem_cons.mpr (Or.inl rfl)
    exact (mem_sortDescBy key best l).mp this

/-! Sample encoding candidates used by the concrete counterexamples and
witnesses. -/

/-- A muxed 360p candidate (both codecs present). -/
def fmtMuxed360 : MediaFormat :=
  { vcodec := some "avc1.42001E", acodec := some "mp4a.40.2", height := some 360,
    width := some 640, tbr := some 500, ext := "mp4", url := "http://e/mux360" }

/-- A video-only 720p candidate (audio codec reported as `'none'`). -/
def fmtVideoOnly720 : MediaFormat :=
  { vcodec := some "vp9", acodec := some "none", height := some 720,
    width := some 1280, tbr := some 1200, ext := "webm", url := "http://e/v720" }

/-- A muxed 720p candidate, used where a kind-matching format above a tier
ceiling is needed. -/
def fmt720 : MediaFormat :=
  { vcodec := some "avc1.640028", acodec := some "mp4a.40.2", height := some 720,
    width := some 1280, tbr := some 1500, ext := "mp4", url := "http://e/720" }

/-- An audio-only candidate. -/
def fmtAudio : MediaFormat :=
  { acodec := some "opus", abr := some 160, asr := some 48000, ext := "webm",
    url := "http://e/audio" }

/-- Claim C1 counterexample: with a single kind-matching candidate at height
720 and the `low` tier (ceiling 360), the selector returns the
`NoMatchingFormat`-style failure instead of widening to the best available
candidate, so a failure is produced solely because no candidate meets the
ceiling. -/
theorem claim1_counterexample :
    videoKindFilter [fmt720] = [fmt720] ∧
      selectFormat "video" "low" [fmt720] =
        .failure "No low quality video format found" := by
  constructor
  · rfl
  · rfl

/-- Claim C1 (amended): for the ceiling tiers `low`, `medium` and `high`,
whenever the tier filter empties the kind-filtered candidate set the selector
returns the failure `No <tier> quality video format found`; it does not widen
by discarding the ceiling. -/
theorem claim1_no_widening (formats : List MediaFormat) (quality : String)
    (hq : quality = "low" ∨ quality = "medium" ∨ quality = "high")
    (hempty : tierFilter quality (videoKindFilter formats) = []) :
    selectFormat "video" quality formats =
      .failure ("No " ++ quality ++ " quality video format found") := by
  have hvid : ¬ (("video" : String) = "audio") := by decide
  simp only [selectFormat, if_neg hvid, hempty, sortDescBy]

/-- Witness for the amended C1 theorem at a concrete candidate list. -/
theorem claim1_no_widening_witness :
    selectFormat "video" "low" [fmt720] =
      .failure ("No " ++ "low" ++ " quality video format found") :=
  claim1_no_widening [fmt720] "low" (Or.inl rfl) rfl

/-- Engine double used by the C2 counterexample: the with-cookie attempt
raises, the cookie-free attempt would return metadata with a usable audio
format. -/
def engineRaisesThenOk : Bool → EngineResult := fun b =>
  if b then .raisesOther "boom"
  else .returns (some { title := "t", formats := [fmtAudio] })

/-- Claim C2 counterexample: when the first (with-credential) engine attempt
raises, `_extract_info_sync` returns an error after exactly one invocation;
no second, credential-free attempt is made even though it would succeed. -/
theorem claim2_counterexample :
    extractInfoSync engineRaisesThenOk "audio" "best" =
      ({ status := "error", message := "Extraction error: boom" }, 1) ∧
    (buildResult "audio" "best" { title := "t", formats := [fmtAudio] }).status =
      "success" := by
  constructor
  · rfl
  · rfl

/-- Claim C2 (amended): the credential-free retry happens exactly when the
first attempt returns no usable metadata; an exception from the first attempt
is caught and converted to an error result after a single invocation.  When
metadata is obtained, the call hands off to `buildResult`, which includes the
video-path `NameError` collapse of line 629. -/
theorem claim2_retry_semantics (engine : Bool → EngineResult)
    (videoType quality : String) :
    (engine true = .returns none →
      (extractInfoSync engine videoType quality).2 = 2) ∧
    (∀ msg, engine true = .raisesOther msg →
      extractInfoSync engine videoType quality =
        ({ status := "error", message := "Extraction error: " ++ msg }, 1)) ∧
    (∀ msg, engine true = .downloadError msg →
      extractInfoSync engine videoType quality = (classifyDownloadError msg, 1)) ∧
    (∀ info, engine true = .returns (some info) →
      extractInfoSync engine videoType quality =
        (buildResult videoType quality info, 1)) := by
  refine ⟨?_, ?_, ?_, ?_⟩
  · intro h
    simp only [extractInfoSync, h]
    cases hf : engine false with
    | downloadError msg => rfl
    | raisesOther msg => rfl
    | returns info => cases info <;> rfl
  · intro msg h
    simp only [extractInfoSync, h]
  · intro msg h
    simp only [extractInfoSync, h]
  · intro info h
    simp only [extractInfoSync, h]

/-- Engine double that yields no metadata on both attempts. -/
def engineNoMeta : Bool → EngineResult := fun _ => .returns none

/-- Witness for the amended C2 theorem: with no usable metadata on the first
attempt, exactly two invocations occur. -/
theorem claim2_retry_semantics_witness :
    (extractInfoSync engineNoMeta "audio" "best").2 = 2 :=
  (claim2_retry_semantics engineNoMeta "audio" "best").1 rfl

/-- Claim C3 counterexample: with a muxed 360p candidate and a video-only
720p candidate, video selection returns the video-only candidate (whose audio
codec is `'none'`) even though a muxed candidate exists. -/
theorem claim3_counterexample :
    selectFormat "video" "best" [fmtMuxed360, fmtVideoOnly720] =
      .success "video" fmtVideoOnly720 ∧
    fmtVideoOnly720.acodec = some "none" ∧
    fmtMuxed360.acodec = some "mp4a.40.2" ∧
    fmtMuxed360.vcodec = some "avc1.42001E" := by
  refine ⟨?_, rfl, rfl, rfl⟩
  rfl

/-- Claim C3 (amended): video selection filters only on the video codec and
ranks by `(height, width, fps, tbr)`; the presence of an audio codec is never
consulted, so the returned candidate is simply the key-maximal element of the
video-codec-filtered, tier-filtered set. -/
theorem claim3_video_ignores_audio (formats : List MediaFormat) (quality : String)
    (hne : tierFilter quality (videoKindFilter formats) ≠ []) :
    ∃ best, selectFormat "video" quality formats = .success "video" best ∧
      best ∈ videoKindFilter formats ∧ best.vcodec ≠ some "none" ∧
      ∀ f ∈ tierFilter quality (videoKindFilter formats),
        lex4Lt (videoKey best) (videoKey f) = false := by
  obtain ⟨best, t, hs, hmem, hmax⟩ := sortDescBy_head_spec videoKey _ hne
  have hmem2 : best ∈ videoKindFilter formats :=
    mem_of_mem_tierFilter quality _ best hmem
  have hvc : best.vcodec ≠ some "none" := by
    have := (List.mem_filter.mp hmem2).2
    simpa using this
  have hvid : ¬ (("video" : String) = "audio") := by decide
  refine ⟨best, ?_, hmem2, hvc, hmax⟩
  simp only [selectFormat, if_neg hvid, hs]

/-- Witness for the amended C3 theorem at a concrete candidate list. -/
theorem claim3_video_ignores_audio_witness :
    ∃ best, selectFormat "video" "best" [fmtMuxed360, fmtVideoOnly720] =
      .success "video" best ∧
      best ∈ videoKindFilter [fmtMuxed360, fmtVideoOnly720] ∧
      best.vcodec ≠ some "none" ∧
      ∀ f ∈ tierFilter "best" (videoKindFilter [fmtMuxed360, fmtVideoOnly720]),
        lex4Lt (videoKey best) (videoKey f) = false :=
  claim3_video_ignores_audio [fmtMuxed360, fmtVideoOnly720] "best" (by decide)

/-- Claim C9: audio selection never returns a candidate whose audio codec is
reported absent: under the premise that every candidate carries an explicit
audio-codec field (audio-only, muxed, or video-only with codec `'none'`) and
at least one audio-bearing candidate exists, the selected format is an
audio-bearing member of the list and is maximal for the composite key
`(bitrate, m4a-container bonus, mp3 bonus, sample rate)`. -/
theorem claim9_audio_selection (formats : List MediaFormat) (quality : String)
    (hall : ∀ f ∈ formats, f.acodec ≠ none)
    (hex : ∃ f ∈ formats, f.acodec ≠ some "none") :
    ∃ best, selectFormat "audio" quality formats = .success "audio" best ∧
      best ∈ formats ∧
      (∃ a, best.acodec = some a ∧ a ≠ "none") ∧
      ∀ f ∈ formats, f.acodec ≠ some "none" →
        lex4Lt (audioKey best) (audioKey f) = false := by
  obtain ⟨f0, hf0, hf0a⟩ := hex
  have hne : audioFilter formats ≠ [] := by
    intro hc
    have : f0 ∈ audioFilter formats := by
      rw [audioFilter, List.mem_filter]
      exact ⟨hf0, by simpa using hf0a⟩
    rw [hc] at this
    cases this
  obtain ⟨best, t, hs, hmem, hmax⟩ := sortDescBy_head_spec audioKey _ hne
  have hmem2 : best ∈ formats := (List.mem_filter.mp hmem).1
  have hba : best.acodec ≠ some "none" := by
    have := (List.mem_filter.mp hmem).2
    simpa using this
  refine ⟨best, ?_, hmem2, ?_, ?_⟩
  · simp [selectFormat, hs]
  · cases hbc : best.acodec with
    | none => exact absurd hbc (hall best hmem2)
    | some a =>
      refine ⟨a, rfl, fun hc => ?_⟩
      rw [hc] at hbc
      exact hba hbc
  · intro f hf hfa
    apply hmax
    rw [audioFilter, List.mem_filter]
    exact ⟨hf, by simpa using hfa⟩

/-- Witness for the C9 theorem at a concrete mixed candidate list. -/
theorem claim9_audio_selection_witness :
    ∃ best, selectFormat "audio" "best" [fmtVideoOnly720, fmtAudio, fmtMuxed360] =
      .success "audio" best ∧
      best ∈ [fmtVideoOnly720, fmtAudio, fmtMuxed360] ∧
      (∃ a, best.acodec = some a ∧ a ≠ "none") ∧
      ∀ f ∈ [fmtVideoOnly720, fmtAudio, fmtMuxed360], f.acodec ≠ some "none" →
        lex4Lt (audioKey best) (audioKey f) = false :=
  claim9_audio_selection [fmtVideoOnly720, fmtAudio, fmtMuxed360] "best"
    (by decide) ⟨fmtAudio, by decide, by decide⟩

/-! Helper lemmas about the pattern scanners: a pattern whose literal part
contains a character absent from the input cannot match anywhere. -/

theorem dropLit_mem (lit l r : List Char) (h : dropLit lit l = some r) :
    ∀ x ∈ lit, x ∈ l := by
  induction lit generalizing l with
  | nil => intro x hx; cases hx
  | cons a lit' ih =>
    cases l with
    | nil => cases h
    | cons b l' =>
      simp only [dropLit] at h
      by_cases hab : a = b
      · rw [if_pos hab] at h
        intro x hx
        rcases List.mem_cons.mp hx with rfl | hx2
        · exact List.mem_cons.mpr (Or.inl hab)
        · exact List.mem_cons.mpr (Or.inr (ih l' h x hx2))
      · rw [if_neg hab] at h
        cases h

theorem matchLitThenId_none (lit : String) (l : List Char) (x : Char)
    (hx : x ∈ lit.toList) (hnx : x ∉ l) : matchLitThenId lit l = none := by
  unfold matchLitThenId
  cases hd : dropLit lit.toList l with
  | none => rfl
  | some rest => exact absurd (dropLit_mem _ _ _ hd x hx) hnx

theorem matchP1_none (l : List Char) (h1 : '=' ∉ l) (h2 : '/' ∉ l) :
    matchP1 l = none := by
  have e1 := matchLitThenId_none "v=" l '=' (by decide) h1
  have e2 := matchLitThenId_none "/" l '/' (by decide) h2
  simp only [matchP1, e1, e2]

theorem matchPathQuery_none (l : List Char) (h : '/' ∉ l) :
    matchPathQuery l = none := by
  cases l with
  | nil => rfl
  | cons c rest =>
    have hc : ¬ (c = '/') := by
      intro hcc
      rw [hcc] at h
      exact h (List.mem_cons.mpr (Or.inl rfl))
    simp only [matchPathQuery, if_neg hc]

theorem searchSuffix_none (m : List Char → Option (List Char)) (l : List Char)
    (h : ∀ l2 : List Char, (∀ x ∈ l2, x ∈ l) → m l2 = none) :
    searchSuffix m l = none := by
  induction l with
  | nil => exact h [] (by intro x hx; cases hx)
  | cons c rest ih =>
    have e := h (c :: rest) fun x hx => hx
    simp only [searchSuffix, e]
    exact ih fun l2 hl2 => h l2 fun x hx => List.mem_cons.mpr (Or.inr (hl2 x hx))

theorem utilsPatterns_no_match (l : List Char) (heq : '=' ∉ l) (hsl : '/' ∉ l) :
    firstPatternMatch l utilsPatterns = none := by
  have hsub : ∀ l2 : List Char, (∀ x ∈ l2, x ∈ l) → '=' ∉ l2 ∧ '/' ∉ l2 :=
    fun l2 hl2 => ⟨fun hc => heq (hl2 _ hc), fun hc => hsl (hl2 _ hc)⟩
  have s1 : searchSuffix matchP1 l = none :=
    searchSuffix_none _ _ fun l2 hl2 =>
      matchP1_none l2 (hsub l2 hl2).1 (hsub l2 hl2).2
  have s2 : searchSuffix (matchLitThenId "embed/") l = none :=
    searchSuffix_none _ _ fun l2 hl2 =>
      matchLitThenId_none _ _ '/' (by decide) (hsub l2 hl2).2
  have s3 : searchSuffix (matchLitThenId "shorts/") l = none :=
    searchSuffix_none _ _ fun l2 hl2 =>
      matchLitThenId_none _ _ '/' (by decide) (hsub l2 hl2).2
  have s4 : searchSuffix (matchLitThenId "live/") l = none :=
    searchSuffix_none _ _ fun l2 hl2 =>
      matchLitThenId_none _ _ '/' (by decide) (hsub l2 hl2).2
  have s5 : searchSuffix (matchLitThenId "youtu.be/") l = none :=
    searchSuffix_none _ _ fun l2 hl2 =>
      matchLitThenId_none _ _ '/' (by decide) (hsub l2 hl2).2
  have s6 : searchSuffix matchPathQuery l = none :=
    searchSuffix_none _ _ fun l2 hl2 => matchPathQuery_none l2 (hsub l2 hl2).2
  simp only [utilsPatterns, firstPatternMatch, s1, s2, s3, s4, s5, s6]

theorem apiPatterns_no_match (l : List Char) (heq : '=' ∉ l) (hsl : '/' ∉ l) :
    firstPatternMatch l apiPatterns = none := by
  have hsub : ∀ l2 : List Char, (∀ x ∈ l2, x ∈ l) → '=' ∉ l2 ∧ '/' ∉ l2 :=
    fun l2 hl2 => ⟨fun hc => heq (hl2 _ hc), fun hc => hsl (hl2 _ hc)⟩
  have s1 : searchSuffix apiMatchP1 l = none := by
    apply searchSuffix_none
    intro l2 hl2
    have e1 := matchLitThenId_none "youtube.com/watch?v=" l2 '/' (by decide)
      (hsub l2 hl2).2
    have e2 := matchLitThenId_none "youtu.be/" l2 '/' (by decide) (hsub l2 hl2).2
    simp only [apiMatchP1, e1, e2]
  have s2 : searchSuffix (matchLitThenId "v=") l = none :=
    searchSuffix_none _ _ fun l2 hl2 =>
      matchLitThenId_none _ _ '=' (by decide) (hsub l2 hl2).1
  have s3 : searchSuffix (matchLitThenId "embed/") l = none :=
    searchSuffix_none _ _ fun l2 hl2 =>
      matchLitThenId_none _ _ '/' (by decide) (hsub l2 hl2).2
  have s4 : searchSuffix (matchLitThenId "youtube.com/v/") l = none :=
    searchSuffix_none _ _ fun l2 hl2 =>
      matchLitThenId_none _ _ '/' (by decide) (hsub l2 hl2).2
  simp only [apiPatterns, firstPatternMatch, s1, s2, s3, s4]

theorem splitAtChar_fst_subset (sep : Char) (l : List Char) :
    ∀ x ∈ (splitAtChar sep l).1, x ∈ l := by
  induction l with
  | nil => intro x hx; cases hx
  | cons c rest ih =>
    by_cases hc : c = sep
    · simp only [splitAtChar, if_pos hc]
      intro x hx
      cases hx
    · simp only [splitAtChar, if_neg hc]
      intro x hx
      rcases List.mem_cons.mp hx with rfl | hx2
      · exact List.mem_cons.mpr (Or.inl rfl)
      · exact List.mem_cons.mpr (Or.inr (ih x hx2))

theorem splitAtChar_snd_subset (sep : Char) (l after : List Char)
    (h : (splitAtChar sep l).2 = some after) : ∀ x ∈ after, x ∈ l := by
  induction l with
  | nil => cases h
  | cons c rest ih =>
    by_cases hc : c = sep
    · simp only [splitAtChar, if_pos hc] at h
      cases h
      exact fun x hx => List.mem_cons.mpr (Or.inr hx)
    · simp only [splitAtChar, if_neg hc] at h
      exact fun x hx => List.mem_cons.mpr (Or.inr (ih h x hx))

theorem splitScheme_subset (l : List Char) : ∀ x ∈ splitScheme l, x ∈ l := by
  intro x hx
  unfold splitScheme at hx
  cases hsnd : (splitAtChar ':' l).2 with
  | none =>
    rw [hsnd] at hx
    exact hx
  | some after =>
    rw [hsnd] at hx
    simp only at hx
    split at hx
    · exact splitAtChar_snd_subset ':' l after hsnd x hx
    · exact hx

theorem netlocSplit_no_slash (l : List Char) (h : '/' ∉ l) :
    netlocSplit l = (none, l) := by
  cases l with
  | nil => rfl
  | cons c1 rest =>
    cases rest with
    | nil => rfl
    | cons c2 rest' =>
      have h1 : ¬ (c1 = '/') := by
        intro hc
        rw [hc] at h
        exact h (List.mem_cons.mpr (Or.inl rfl))
      have hb : (c1 == '/' && c2 == '/') = false := by
        have : (c1 == '/') = false := by
          rw [beq_eq_false_iff_ne]
          exact h1
        rw [this, Bool.false_and]
      simp only [netlocSplit, hb, Bool.false_eq_true, if_false]

theorem urlparseFallback_none (l : List Char) (h : '/' ∉ l) :
    urlparseFallback l = none := by
  have h1 : '/' ∉ (splitAtChar '#' l).1 :=
    fun hc => h (splitAtChar_fst_subset '#' l '/' hc)
  have h2 : '/' ∉ splitScheme (splitAtChar '#' l).1 :=
    fun hc => h1 (splitScheme_subset _ '/' hc)
  simp only [urlparseFallback, netlocSplit_no_slash _ h2]

theorem extractVideoId_none_of_no_special (s : String) (heq : '=' ∉ s.toList)
    (hsl : '/' ∉ s.toList) : extractVideoId s = none := by
  simp only [extractVideoId, utilsPatterns_no_match _ heq hsl,
    urlparseFallback_none _ hsl]

theorem no_special_of_canonical (s : String) (h : isCanonicalId s = true) :
    '=' ∉ s.toList ∧ '/' ∉ s.toList := by
  simp only [isCanonicalId, Bool.and_eq_true, List.all_eq_true] at h
  constructor
  · intro hc
    exact absurd (h.2 '=' hc) (by decide)
  · intro hc
    exact absurd (h.2 '/' hc) (by decide)

/-- Claim C7 counterexample: the canonical identifier `aaaaaaaaaaa` is NOT
returned unchanged by `YouTubeUtils.extract_video_id`; the utils.py extractor
returns `None` on a bare canonical identifier, since every one of its
patterns requires URL punctuation and the urlparse fallback finds no
hostname. -/
theorem claim7_counterexample :
    isCanonicalId "aaaaaaaaaaa" = true ∧
      extractVideoId "aaaaaaaaaaa" = none := by
  constructor
  · rfl
  · rfl

/-- Claim C7 (amended): only the api.py extractor is the identity on
canonical identifiers; the utils.py extractor returns `None` for every bare
canonical identifier. -/
theorem claim7_canonical_identifiers (s : String) (h : isCanonicalId s = true) :
    apiExtractVideoId s = s ∧ extractVideoId s = none := by
  obtain ⟨heq, hsl⟩ := no_special_of_canonical s h
  constructor
  · simp [apiExtractVideoId, h]
  · exact extractVideoId_none_of_no_special s heq hsl

/-- Witness for the amended C7 theorem at a concrete canonical identifier. -/
theorem claim7_canonical_identifiers_witness :
    apiExtractVideoId "dQw4w9WgXcQ" = "dQw4w9WgXcQ" ∧
      extractVideoId "dQw4w9WgXcQ" = none :=
  claim7_canonical_identifiers "dQw4w9WgXcQ" (by decide)

/-- Claim C8 counterexample: on an input matching neither the canonical shape
nor any URL pattern, the api.py extractor returns the raw input, not `None`
(its return type does not even admit `None`). -/
theorem claim8_counterexample :
    isCanonicalId "hello world!" = false ∧
      firstPatternMatch "hello world!".toList apiPatterns = none ∧
      apiExtractVideoId "hello world!" = "hello world!" := by
  refine ⟨rfl, ?_, rfl⟩
  rfl

/-- Claim C8 (amended): on inputs free of URL punctuation that are not
canonical identifiers, the utils.py extractor returns `None` without raising,
while the api.py extractor passes the raw input through unchanged. -/
theorem claim8_unmatched_inputs (s : String) (hnc : isCanonicalId s = false)
    (heq : '=' ∉ s.toList) (hsl : '/' ∉ s.toList) :
    extractVideoId s = none ∧ apiExtractVideoId s = s := by
  constructor
  · exact extractVideoId_none_of_no_special s heq hsl
  · simp only [apiExtractVideoId, hnc, Bool.false_eq_true, if_false,
      apiPatterns_no_match _ heq hsl]

/-- Witness for the amended C8 theorem at a concrete non-matching input. -/
theorem claim8_unmatched_inputs_witness :
    extractVideoId "???" = none ∧ apiExtractVideoId "???" = "???" :=
  claim8_unmatched_inputs "???" rfl (by decide) (by decide)

/-- Claim C5: a cache read strictly before `insertion_time + TTL` returns the
value, leaves the stored entry (and thus its expiry) untouched and refreshes
the access time; a read at or after `insertion_time + TTL` is a miss that
removes the entry, shrinking the size count; a hit never extends the expiry,
so a later read past the deadline still misses. -/
theorem claim5_cache_ttl {K V : Type} [DecidableEq K] (st : CacheState K V)
    (key : K) (e : CacheEntry V) (ttl now now2 : Int)
    (hl : lookupA key st.cache = some e) :
    (now - e.timestamp < ttl →
      (cacheGet ttl now key st).1 = some e.value ∧
      (cacheGet ttl now key st).2.cache = st.cache ∧
      lookupA key (cacheGet ttl now key st).2.accessTimes = some now ∧
      (ttl ≤ now2 - e.timestamp →
        (cacheGet ttl now2 key (cacheGet ttl now key st).2).1 = none)) ∧
    (ttl ≤ now - e.timestamp →
      (cacheGet ttl now key st).1 = none ∧
      (NodupKeys st.cache →
        lookupA key (cacheGet ttl now key st).2.cache = none) ∧
      (cacheGet ttl now key st).2.cache.length + 1 = st.cache.length) := by
  constructor
  · intro hfresh
    simp only [cacheGet, hl, if_pos hfresh]
    refine ⟨by trivial, by trivial, lookupA_insertA_self key now st.accessTimes, ?_⟩
    intro hstale
    simp only [cacheGet, hl, if_neg (not_lt.mpr hstale)]
  · intro hstale
    simp only [cacheGet, hl, if_neg (not_lt.mpr hstale)]
    refine ⟨by trivial, fun hnd => lookupA_eraseA_self key st.cache hnd, ?_⟩
    apply eraseA_length
    rw [containsA, hl]
    rfl

/-- Concrete one-entry cache state used by the C5 witness. -/
def cacheW : CacheState String Nat :=
  { cache := [("k", ⟨0, 42, 1⟩)], accessTimes := [("k", 0)] }

/-- Witness for the C5 theorem: a read one second before the TTL deadline
hits, a read exactly at the deadline misses and shrinks the cache. -/
theorem claim5_cache_ttl_witness :
    (cacheGet 3600 3599 "k" cacheW).1 = some 42 ∧
      (cacheGet 3600 3600 "k" cacheW).1 = none ∧
      (cacheGet 3600 3600 "k" cacheW).2.cache.length + 1 = cacheW.cache.length := by
  refine ⟨?_, ?_, ?_⟩
  · exact (((claim5_cache_ttl cacheW "k" ⟨0, 42, 1⟩ 3600 3599 3600 rfl).1)
      (by decide)).1
  · exact (((claim5_cache_ttl cacheW "k" ⟨0, 42, 1⟩ 3600 3600 0 rfl).2)
      (by decide)).1
  · exact (((claim5_cache_ttl cacheW "k" ⟨0, 42, 1⟩ 3600 3600 0 rfl).2)
      (by decide)).2.2

/-- Claim C4: (scenario) inserting `maxSize + k` distinct keys at increasing
access times into an empty cache leaves exactly `maxSize` live entries, with
the `k` least-recently-accessed keys evicted and the rest present;
(general) any insertion into a well-formed cache at or below capacity keeps
the live-entry count at or below the configured maximum, and an insertion
that finds the cache exactly at capacity evicts the key holding the oldest
last-accessed timestamp as computed by `minByTime`. -/
theorem claim4_lru_capacity {V : Type} (maxSize k : Nat) (hpos : 1 ≤ maxSize)
    (hk : 1 ≤ k) (vals : Nat → V) (sizes : Nat → Nat) :
    ((insertKeys maxSize vals sizes (maxSize + k)).cache.length = maxSize ∧
     (∀ j, j < k →
        lookupA j (insertKeys maxSize vals sizes (maxSize + k)).cache = none) ∧
     (∀ j, k ≤ j → j < maxSize + k →
        lookupA j (insertKeys maxSize vals sizes (maxSize + k)).cache =
          some ⟨(j : Int), vals j, sizes j⟩)) ∧
    (∀ (st : CacheState Nat V) (now : Int) (key : Nat) (v : V) (size : Nat),
      CacheWF st → st.cache.length ≤ maxSize →
        (cacheSet maxSize now key v size st).cache.length ≤ maxSize) ∧
    (∀ (st : CacheState Nat V) (now : Int) (key : Nat) (v : V) (size : Nat)
        (k0 : Nat) (t0 : Int),
      CacheWF st → st.cache.length = maxSize →
      minByTime st.accessTimes = some (k0, t0) → k0 ≠ key →
        lookupA k0 (cacheSet maxSize now key v size st).cache = none) := by
  obtain ⟨hc, ha⟩ := insertKeys_characterization maxSize hpos vals sizes (maxSize + k)
  have hsub : maxSize + k - maxSize = k := by omega
  have hmin : min (maxSize + k) maxSize = maxSize := by omega
  rw [hsub, hmin] at hc ha
  refine ⟨⟨?_, ?_, ?_⟩, ?_, ?_⟩
  · rw [hc, List.length_map, List.length_range']
  · intro j hj
    rw [hc, lookupA_map_range', if_neg (by omega)]
  · intro j hj1 hj2
    rw [hc, lookupA_map_range', if_pos (by omega)]
  · intro st now key v size hwf hlen
    obtain ⟨hwf2, hlt⟩ :=
      evictLoop_reaches maxSize hpos (st.cache.length + 1) st hwf (by omega)
    show (insertA key ⟨now, v, size⟩
        (evictLoop maxSize (st.cache.length + 1) st).cache).length ≤ maxSize
    have := insertA_length_le key (⟨now, v, size⟩ : CacheEntry V)
      (evictLoop maxSize (st.cache.length + 1) st).cache
    omega
  · intro st now key v size k0 t0 hwf hlen hmb hne
    have hmem := minByTime_mem _ _ hmb
    have hcAT : containsA k0 st.accessTimes = true := containsA_of_mem (k0, t0) _ hmem
    have hcC : containsA k0 st.cache = true := by
      rw [hwf.2.2 k0]
      exact hcAT
    obtain ⟨e, he⟩ : ∃ e, lookupA k0 st.cache = some e := by
      cases hx : lookupA k0 st.cache with
      | none =>
        rw [containsA, hx] at hcC
        cases hcC
      | some e => exact ⟨e, rfl⟩
    have herase : (eraseA k0 st.cache).length + 1 = st.cache.length :=
      eraseA_length k0 _ hcC
    have hloop : evictLoop maxSize (st.cache.length + 1) st =
        { st with
            cache := eraseA k0 st.cache,
            accessTimes := eraseA k0 st.accessTimes,
            stats := { st.stats with
                         sizeBytes := st.stats.sizeBytes - (e.size : Int),
                         evictions := st.stats.evictions + 1 } } := by
      rw [hlen]
      rw [evictLoop]
      rw [if_pos (show maxSize ≤ st.cache.length by omega)]
      simp only [hmb, he]
      apply evictLoop_of_lt
      show (eraseA k0 st.cache).length < maxSize
      omega
    show lookupA k0 (insertA key ⟨now, v, size⟩
        (evictLoop maxSize (st.cache.length + 1) st).cache) = none
    rw [hloop]
    show lookupA k0 (insertA key ⟨now, v, size⟩ (eraseA k0 st.cache)) = none
    rw [lookupA_insertA_ne k0 key _ _ (Ne.symm hne)]
    exact lookupA_eraseA_self k0 st.cache hwf.1

/-- Witness for the C4 theorem: capacity 2, three insertions; the oldest key
is gone, the two newest remain. -/
theorem claim4_lru_capacity_witness :
    (insertKeys 2 (fun j => j) (fun _ => 1) 3).cache.length = 2 ∧
      lookupA 0 (insertKeys 2 (fun j => j) (fun _ => 1) 3).cache = none ∧
      lookupA 2 (insertKeys 2 (fun j => j) (fun _ => 1) 3).cache =
        some ⟨(2 : Int), 2, 1⟩ := by
  have h := claim4_lru_capacity 2 1 (by decide) (by decide) (fun j => j) (fun _ => 1)
  exact ⟨h.1.1, h.1.2.1 0 (by decide), h.1.2.2 2 (by decide) (by decide)⟩

/-- Every `_extract_info_sync` call invokes the engine at least once. -/
theorem extractInfoSync_invocations_pos (engine : Bool → EngineResult)
    (videoType quality : String) :
    1 ≤ (extractInfoSync engine videoType quality).2 := by
  unfold extractInfoSync
  cases engine true with
  | downloadError m => simp
  | raisesOther m => simp
  | returns info =>
    cases info with
    | some i => simp
    | none =>
      cases engine false with
      | downloadError m => simp
      | raisesOther m => simp
      | returns i2 => cases i2 <;> simp

/-- Claim C10: when the extraction outcome is a failure and the key is not
cached, `get_stream_info` returns the failure without touching the cache
entries or access times; a second identical request misses the cache again
and reaches the extraction engine (at least one engine invocation) instead of
being served a cached failure.  Through `buildResult` the failure hypothesis
covers every real failure outcome, among them the `NameError` error result
that every `video`-type resolution produces at line 629. -/
theorem claim10_failures_not_cached (maxSize : Nat) (ttl now now2 : Int)
    (engine : Bool → EngineResult) (url videoType quality : String)
    (st : CacheState String StreamResult) (videoId : String)
    (hvid : extractVideoId url = some videoId)
    (hmiss : lookupA (videoId ++ ":" ++ videoType ++ ":" ++ quality) st.cache = none)
    (hfail : (extractInfoSync engine videoType quality).1.status ≠ "success") :
    (getStreamInfo maxSize ttl now engine url videoType quality st).1 =
        (extractInfoSync engine videoType quality).1 ∧
      (getStreamInfo maxSize ttl now engine url videoType quality st).2.1.cache =
        st.cache ∧
      (getStreamInfo maxSize ttl now engine url videoType quality st).2.1.accessTimes =
        st.accessTimes ∧
      1 ≤ (getStreamInfo maxSize ttl now engine url videoType quality st).2.2 ∧
      (getStreamInfo maxSize ttl now2 engine url videoType quality
          (getStreamInfo maxSize ttl now engine url videoType quality st).2.1).1 =
        (extractInfoSync engine videoType quality).1 ∧
      1 ≤ (getStreamInfo maxSize ttl now2 engine url videoType quality
          (getStreamInfo maxSize ttl now engine url videoType quality st).2.1).2.2 := by
  have hpos := extractInfoSync_invocations_pos engine videoType quality
  simp only [getStreamInfo, hvid, cacheGet, hmiss, if_neg hfail]
  refine ⟨by trivial, by trivial, by trivial, hpos, by trivial, hpos⟩

/-- Engine double used by the C10 witness: it returns metadata with a
selectable video format, so a `video`-type resolution fails only through the
line-629 `NameError` collapse. -/
def engineVideoMeta : Bool → EngineResult := fun _ =>
  .returns (some { title := "t", formats := [fmt720] })

/-- Witness for the C10 theorem on the video path: the resolution fails (via
the line-629 `NameError` result) and nothing is written to the cache. -/
theorem claim10_failures_not_cached_witness :
    (extractInfoSync engineVideoMeta "video" "best").1.status = "error" ∧
      (getStreamInfo 500 3600 0 engineVideoMeta "x/abcdefghijk" "video" "best"
        {}).1 = (extractInfoSync engineVideoMeta "video" "best").1 ∧
      (getStreamInfo 500 3600 0 engineVideoMeta "x/abcdefghijk" "video" "best"
        {}).2.1.cache = ({} : CacheState String StreamResult).cache := by
  have h := claim10_failures_not_cached 500 3600 0 1 engineVideoMeta
    "x/abcdefghijk" "video" "best" {} "abcdefghijk" (by rfl) rfl (by decide)
  exact ⟨by decide, h.1, h.2.1⟩

/-! Computation lemmas for the rate limiter. -/

section RateLimiterProofs

variable {K : Type} [DecidableEq K]

theorem filter_window_all (ws : Int) (acc : List Int) (h : ∀ a ∈ acc, ws < a) :
    (acc.filter fun a => decide (ws < a)) = acc :=
  List.filter_eq_self.mpr fun a ha => decide_eq_true (h a ha)

theorem foldl_count_ones (l : List Int) (i : Nat) :
    ((l.map fun a => (a, 1)).foldl (fun acc q => acc + q.2) i) = i + l.length := by
  induction l generalizing i with
  | nil => simp
  | cons t rest ih =>
    simp only [List.map_cons, List.foldl_cons, List.length_cons]
    rw [ih]
    omega

theorem any_map_window (ws : Int) (acc : List Int) :
    ((acc.map fun a => (a, 1)).any fun q => decide (ws < q.1)) =
      acc.any fun a => decide (ws < a) := by
  induction acc with
  | nil => rfl
  | cons a rest ih => simp only [List.map_cons, List.any_cons, ih]

theorem filter_map_window (ws : Int) (acc : List Int) :
    ((acc.map fun a => (a, 1)).filter fun q => decide (ws < q.1)) =
      (acc.filter fun a => decide (ws < a)).map fun a => (a, 1) := by
  induction acc with
  | nil => rfl
  | cons a rest ih =>
    simp only [List.map_cons, List.filter_cons]
    by_cases h : ws < a
    · simp only [decide_eq_true h, if_pos rfl, List.map_cons, ih]
      constructor
    · simp only [decide_eq_false h, ih]
      constructor

theorem prune_singleton (ws : Int) (ip : K) (acc : List Int) :
    pruneRequests ws [(ip, acc.map fun a => (a, 1))] =
      if acc.any (fun a => decide (ws < a)) then
        [(ip, (acc.filter fun a => decide (ws < a)).map fun a => (a, 1))]
      else [] := by
  unfold pruneRequests
  simp only [List.filter_cons, List.filter_nil, any_map_window]
  by_cases h : (acc.any fun a => decide (ws < a)) = true
  · simp [h, filter_map_window]
  · rw [Bool.not_eq_true] at h
    simp [h]

/-- Admitted call: with all retained timestamps inside the window and a count
below the ceiling, `check_limit` appends the current time and accepts. -/
theorem checkLimit_admit (limit : Nat) (t : Int) (ip : K) (acc : List Int)
    (st : RateLimiterState K)
    (hreq : st.requests = [(ip, acc.map fun a => (a, 1))] ∨
      (acc = [] ∧ st.requests = []))
    (hwin : ∀ a ∈ acc, t - 60 < a) (hcount : acc.length < limit) :
    checkLimit limit t ip st =
      (true,
       { st with
           requests := [(ip, (acc ++ [t]).map fun a => (a, 1))],
           totalRequests := st.totalRequests + 1 }) := by
  have hself : t - 60 < t := by omega
  have happ : (((acc.map fun x => (x, 1)) ++ [(t, 1)]).filter
      fun q => decide (t - 60 < q.1)) = (acc ++ [t]).map fun x => (x, 1) := by
    rw [show ((acc.map fun x => (x, 1)) ++ [(t, 1)]) =
        (acc ++ [t]).map fun x => (x, 1) from by simp]
    rw [filter_map_window, filter_window_all]
    intro x hx
    rcases List.mem_append.mp hx with hx1 | hx1
    · exact hwin x hx1
    · rw [List.mem_singleton.mp hx1]
      exact hself
  rcases hreq with hreq | ⟨rfl, hreq⟩
  · cases acc with
    | nil =>
      have hlim : ¬ (limit ≤ 0) := by
        simp only [List.length_nil] at hcount
        omega
      simp [checkLimit, hreq, pruneRequests, containsA, lookupA, insertA,
        hlim, hself]
    | cons a acc' =>
      have hany : ((a :: acc').any fun x => decide (t - 60 < x)) = true := by
        simp only [List.any_cons, Bool.or_eq_true, decide_eq_true_eq]
        exact Or.inl (hwin a (List.mem_cons.mpr (Or.inl rfl)))
      have hfilter := filter_window_all (t - 60) (a :: acc') hwin
      have hprune : pruneRequests (t - 60) [(ip, (a :: acc').map fun x => (x, 1))] =
          [(ip, (a :: acc').map fun x => (x, 1))] := by
        rw [prune_singleton, hany, if_pos rfl, hfilter]
      have hcontains : containsA ip [(ip, (a :: acc').map fun x => (x, 1))] = true := by
        simp [containsA, lookupA]
      have hlook : lookupA ip [(ip, (a :: acc').map fun x => (x, 1))] =
          some ((a :: acc').map fun x => (x, 1)) := by
        simp [lookupA]
      have hcnt : (((a :: acc').map fun x => (x, 1)).filter fun q =>
          decide (t - 60 < q.1)) = (a :: acc').map fun x => (x, 1) := by
        rw [filter_map_window, hfilter]
      have hnb : ¬ (limit ≤
          (((a :: acc').map fun x => (x, 1)).foldl (fun n q => n + q.2) 0)) := by
        rw [foldl_count_ones]
        omega
      have hins : insertA ip (((a :: acc') ++ [t]).map fun x => (x, 1))
          [(ip, (a :: acc').map fun x => (x, 1))] =
          [(ip, ((a :: acc') ++ [t]).map fun x => (x, 1))] := by
        simp [insertA]
      simp only [checkLimit]
      rw [hreq, hprune, hcontains, if_pos rfl, hlook, Option.getD_some, hcnt,
        if_neg hnb, happ, hins]
  · have hlim : ¬ (limit ≤ 0) := by
      simp only [List.length_nil] at hcount
      omega
    simp [checkLimit, hreq, pruneRequests, containsA, lookupA, insertA,
      hlim, hself]

/-- Blocked call: at or above the ceiling, `check_limit` rejects, keeps the
pruned request map and records the blocked statistics. -/
theorem checkLimit_block (limit : Nat) (t : Int) (ip : K) (acc : List Int)
    (st : RateLimiterState K)
    (hreq : st.requests = [(ip, acc.map fun a => (a, 1))])
    (hwin : ∀ a ∈ acc, t - 60 < a) (hne : acc ≠ [])
    (hcount : limit ≤ acc.length) :
    checkLimit limit t ip st =
      (false,
       { st with
           requests := [(ip, acc.map fun a => (a, 1))],
           blockedRequests := st.blockedRequests + 1,
           byIp := insertA ip ((lookupA ip st.byIp).getD 0 + 1) st.byIp }) := by
  obtain ⟨a, acc', rfl⟩ : ∃ a acc', acc = a :: acc' := by
    cases acc with
    | nil => exact absurd rfl hne
    | cons a acc' => exact ⟨a, acc', rfl⟩
  have hany : ((a :: acc').any fun x => decide (t - 60 < x)) = true := by
    simp only [List.any_cons, Bool.or_eq_true, decide_eq_true_eq]
    exact Or.inl (hwin a (List.mem_cons.mpr (Or.inl rfl)))
  have hfilter := filter_window_all (t - 60) (a :: acc') hwin
  have hprune : pruneRequests (t - 60) [(ip, (a :: acc').map fun x => (x, 1))] =
      [(ip, (a :: acc').map fun x => (x, 1))] := by
    rw [prune_singleton, hany, if_pos rfl, hfilter]
  have hcontains : containsA ip [(ip, (a :: acc').map fun x => (x, 1))] = true := by
    simp [containsA, lookupA]
  have hlook : lookupA ip [(ip, (a :: acc').map fun x => (x, 1))] =
      some ((a :: acc').map fun x => (x, 1)) := by
    simp [lookupA]
  have hcnt : (((a :: acc').map fun x => (x, 1)).filter fun q =>
      decide (t - 60 < q.1)) = (a :: acc').map fun x => (x, 1) := by
    rw [filter_map_window, hfilter]
  have hyes : limit ≤
      (((a :: acc').map fun x => (x, 1)).foldl (fun n q => n + q.2) 0) := by
    rw [foldl_count_ones]
    omega
  simp only [checkLimit]
  rw [hreq, hprune, hcontains, if_pos rfl, hlook, Option.getD_some, hcnt,
    if_pos hyes]

/-- Recovery call: once the head timestamp has left the window and the
remaining count is below the ceiling, a new request is admitted. -/
theorem checkLimit_recover (limit : Nat) (t : Int) (ip : K) (t0 : Int)
    (rest : List Int) (st : RateLimiterState K)
    (hreq : st.requests = [(ip, (t0 :: rest).map fun a => (a, 1))])
    (hold : ¬ (t - 60 < t0)) (hcount : rest.length < limit) :
    (checkLimit limit t ip st).1 = true := by
  have hfil : ((t0 :: rest).filter fun a => decide (t - 60 < a)) =
      rest.filter fun a => decide (t - 60 < a) := by
    simp [List.filter_cons, hold]
  have hklen : (rest.filter fun a => decide (t - 60 < a)).length ≤ rest.length :=
    List.length_filter_le _ _
  by_cases hany : ((t0 :: rest).any fun a => decide (t - 60 < a)) = true
  · have hprune : pruneRequests (t - 60)
        [(ip, (t0 :: rest).map fun a => (a, 1))] =
        [(ip, (rest.filter fun a => decide (t - 60 < a)).map fun a => (a, 1))] := by
      rw [prune_singleton, hany, if_pos rfl, hfil]
    have hcontains : containsA ip
        [(ip, (rest.filter fun a => decide (t - 60 < a)).map fun a => (a, 1))] =
        true := by
      simp [containsA, lookupA]
    have hlook : lookupA ip
        [(ip, (rest.filter fun a => decide (t - 60 < a)).map fun a => (a, 1))] =
        some ((rest.filter fun a => decide (t - 60 < a)).map fun a => (a, 1)) := by
      simp [lookupA]
    have hcnt : (((rest.filter fun a => decide (t - 60 < a)).map
        fun a => (a, 1)).filter fun q => decide (t - 60 < q.1)) =
        (rest.filter fun a => decide (t - 60 < a)).map fun a => (a, 1) := by
      rw [filter_map_window]
      congr 1
      apply List.filter_eq_self.mpr
      intro x hx
      exact (List.mem_filter.mp hx).2
    have hnb : ¬ (limit ≤
        (((rest.filter fun a => decide (t - 60 < a)).map fun a => (a, 1)).foldl
          (fun n q => n + q.2) 0)) := by
      rw [foldl_count_ones]
      omega
    simp only [checkLimit]
    rw [hreq, hprune, hcontains, if_pos rfl, hlook, Option.getD_some, hcnt,
      if_neg hnb]
  · rw [Bool.not_eq_true] at hany
    have hprune : pruneRequests (t - 60)
        [(ip, (t0 :: rest).map fun a => (a, 1))] = [] := by
      rw [prune_singleton, hany]
      simp
    have hnb : ¬ (limit ≤ 0) := by omega
    simp only [checkLimit]
    rw [hreq, hprune]
    simp [containsA, lookupA, insertA, hnb]

/-- Characterization of a run of admitted calls: starting from a state whose
only tracked client is `ip` with in-window timestamps `acc`, a sequence of
calls all inside one another's windows and within the ceiling is admitted in
full, appending each call time. -/
theorem runCalls_all_admitted (limit : Nat) (ip : K) (ts : List Int) :
    ∀ (acc : List Int) (st : RateLimiterState K),
      (st.requests = [(ip, acc.map fun a => (a, 1))] ∨
        (acc = [] ∧ st.requests = [])) →
      (acc = [] → ts ≠ []) →
      (∀ a ∈ acc, ∀ u ∈ ts, u - 60 < a) →
      List.Pairwise (fun x y => y - 60 < x) ts →
      acc.length + ts.length ≤ limit →
      runCalls limit ip ts st =
        (List.replicate ts.length true,
         { st with
             requests := [(ip, (acc ++ ts).map fun a => (a, 1))],
             totalRequests := st.totalRequests + ts.length }) := by
  induction ts with
  | nil =>
    intro acc st hreq hne hcross hpair hlen
    rcases hreq with hreq | ⟨rfl, hreq2⟩
    · simp [runCalls, ← hreq]
    · exact absurd rfl (hne rfl)
  | cons u us ih =>
    intro acc st hreq hne hcross hpair hlen
    have hstep := checkLimit_admit limit u ip acc st hreq
      (fun a ha => hcross a ha u (List.mem_cons.mpr (Or.inl rfl)))
      (by simp only [List.length_cons] at hlen; omega)
    simp only [runCalls, hstep]
    have hreq2 : ({ st with
        requests := [(ip, (acc ++ [u]).map fun a => (a, 1))],
        totalRequests := st.totalRequests + 1 } : RateLimiterState K).requests =
        [(ip, (acc ++ [u]).map fun a => (a, 1))] := rfl
    have hcross2 : ∀ a ∈ acc ++ [u], ∀ v ∈ us, v - 60 < a := by
      intro a ha v hv
      rcases List.mem_append.mp ha with h1 | h1
      · exact hcross a h1 v (List.mem_cons.mpr (Or.inr hv))
      · rw [List.mem_singleton.mp h1]
        exact (List.pairwise_cons.mp hpair).1 v hv
    have hlen2 : (acc ++ [u]).length + us.length ≤ limit := by
      simp only [List.length_append, List.length_cons, List.length_nil] at hlen ⊢
      omega
    rw [ih (acc ++ [u]) _ (Or.inl hreq2) (fun h => absurd h (by simp)) hcross2
      (List.pairwise_cons.mp hpair).2 hlen2]
    rw [(by simp : (acc ++ [u]) ++ us = acc ++ u :: us),
      (by omega : st.totalRequests + 1 + us.length =
        st.totalRequests + (us.length + 1))]
    rfl

end RateLimiterProofs

/-- Claim C6: with a per-minute ceiling, a client issuing `ceiling` requests
all inside one another's trailing 60-second windows is admitted every time
with nothing blocked; the `ceiling + 1`-th request inside the window is
rejected and increments the blocked statistic; and a request issued once the
first admitted timestamp has aged out of the trailing window (more than 60
seconds later) is admitted again, because each call prunes timestamps older
than `now - 60` before counting. -/
theorem claim6_rate_limiter {K : Type} [DecidableEq K] (limit : Nat) (ip : K)
    (t0 : Int) (rest : List Int) (tb tr : Int)
    (hlimit : limit = rest.length + 1)
    (hpair : List.Pairwise (fun x y => y - 60 < x) ((t0 :: rest) ++ [tb]))
    (hrec : ¬ (tr - 60 < t0)) :
    (runCalls limit ip (t0 :: rest) ({} : RateLimiterState K)).1 =
        List.replicate limit true ∧
      (runCalls limit ip (t0 :: rest) ({} : RateLimiterState K)).2.blockedRequests = 0 ∧
      (checkLimit limit tb ip
        (runCalls limit ip (t0 :: rest) ({} : RateLimiterState K)).2).1 = false ∧
      (checkLimit limit tb ip
        (runCalls limit ip (t0 :: rest) ({} : RateLimiterState K)).2).2.blockedRequests
        = 1 ∧
      (checkLimit limit tr ip
        (checkLimit limit tb ip
          (runCalls limit ip (t0 :: rest) ({} : RateLimiterState K)).2).2).1 = true := by
  have hsplit := List.pairwise_append.mp hpair
  have hrun := runCalls_all_admitted limit ip (t0 :: rest) []
    ({} : RateLimiterState K) (Or.inr ⟨rfl, rfl⟩) (fun _ => by simp)
    (fun a ha => absurd ha (List.not_mem_nil a)) hsplit.1
    (by simp only [List.length_nil, List.length_cons]; omega)
  have hwinb : ∀ a ∈ t0 :: rest, tb - 60 < a := by
    intro a ha
    exact hsplit.2.2 a ha tb (List.mem_singleton.mpr rfl)
  have hreqR : (runCalls limit ip (t0 :: rest) ({} : RateLimiterState K)).2.requests =
      [(ip, (t0 :: rest).map fun a => (a, 1))] := by
    rw [hrun]
    rfl
  have hblk0 : (runCalls limit ip (t0 :: rest) ({} : RateLimiterState K)).2.blockedRequests
      = 0 := by
    rw [hrun]
  have hblock := checkLimit_block limit tb ip (t0 :: rest)
    (runCalls limit ip (t0 :: rest) ({} : RateLimiterState K)).2
    hreqR hwinb (by simp)
    (by simp only [List.length_cons]; omega)
  refine ⟨?_, hblk0, ?_, ?_, ?_⟩
  · rw [hrun]
    simp [hlimit]
  · rw [hblock]
  · rw [hblock]
    show (runCalls limit ip (t0 :: rest)
      ({} : RateLimiterState K)).2.blockedRequests + 1 = 1
    rw [hblk0]
  · rw [hblock]
    exact checkLimit_recover limit tr ip t0 rest _ rfl hrec (by omega)

/-- Witness for the C6 theorem: ceiling 2, admits at times 0 and 30, a block
at 59, and a recovery at 61. -/
theorem claim6_rate_limiter_witness :
    (runCalls 2 "c" [0, 30] ({} : RateLimiterState String)).1 =
        List.replicate 2 true ∧
      (runCalls 2 "c" [0, 30] ({} : RateLimiterState String)).2.blockedRequests = 0 ∧
      (checkLimit 2 59 "c"
        (runCalls 2 "c" [0, 30] ({} : RateLimiterState String)).2).1 = false ∧
      (checkLimit 2 59 "c"
        (runCalls 2 "c" [0, 30] ({} : RateLimiterState String)).2).2.blockedRequests
        = 1 ∧
      (checkLimit 2 61 "c"
        (checkLimit 2 59 "c"
          (runCalls 2 "c" [0, 30] ({} : RateLimiterState String)).2).2).1 = true :=
  claim6_rate_limiter 2 "c" 0 [30] 59 61 rfl (by decide) (by decide)

end StreamAPI
